import Mathlib

/-!
Verification of the Dr-Scheduler CP-SAT scheduling model.

This file gives a shallow embedding of `models/math_schedule.py` (the CP-SAT
path of the scheduler) and settles the specification claims against it.

Conventions of the embedding:

* Dates are integers (days since an arbitrary epoch); `date2 - date1` in the
  source corresponds to integer subtraction, `timedelta(days = n)` to `+ n`,
  and `timedelta(weeks = n)` to `+ 7 * n`.
* Physicians and tasks are identified by their names (strings), as in the
  source, where the decision-variable dictionary `self.y` is keyed by
  `(task.name, start_date, end_date, physician_name)`.
* The CP-SAT model is represented syntactically as a list of constraints
  (`Constr`) in the order the source adds them, together with the
  `constraints_info` log records and an optional linear objective.
* Classes that live in files not present under `src/` (`models/task.py`,
  `models/physician.py`, `models/calendar.py`, `config/managers.py`) are
  modelled from the spec where the scheduler calls into them; each such
  definition carries a doc comment starting with `Modelled from the spec:`.
-/

namespace DrScheduler

/-- A calendar day, as the number of days since an arbitrary epoch. -/
abbrev Date := Int

/-- A physician name (`Physician.name` in the source). -/
abbrev PhysName := String

/-- Embeds `TaskType` enum from `models/task.py` (MAIN or CALL variant of a task). -/
inductive TaskType where
  | MAIN
  | CALL
  deriving DecidableEq, Repr

/-- Embeds `TaskDaysParameter` enum from `models/task.py` (per spec §3: a category is
either CONTINUOUS (single-week) or MULTI_WEEK). -/
inductive TaskDaysParameter where
  | CONTINUOUS
  | MULTI_WEEK
  deriving DecidableEq, Repr

/-- Period type of a calendar period block (`period['type']` in the source). -/
inductive PeriodType where
  | MAIN
  | CALL
  deriving DecidableEq, Repr

/-- Modelled from the spec: `TaskCategory` (src `models/task.py` is not under
`src/`); only the fields read by `math_schedule.py` are kept. -/
structure TaskCategory where
  name : String
  daysParameter : TaskDaysParameter
  deriving DecidableEq, Repr

/-- Modelled from the spec: `Task` (src `models/task.py` is not under `src/`);
only the fields read by `math_schedule.py` are kept. -/
structure Task where
  name : String
  type : TaskType
  category : TaskCategory
  weekOffset : Nat
  numberOfWeeks : Nat
  heaviness : Int
  mandatory : Bool
  deriving DecidableEq, Repr

/-- Modelled from the spec: `Physician` (src `models/physician.py` is not under
`src/`); only the fields read by the CP-SAT path are kept. -/
structure Physician where
  name : PhysName
  exclusionTasks : List String
  deriving DecidableEq, Repr

/-- One typed calendar period block within a week
(`{'type': ..., 'days': [...]}` in the source). -/
structure Period where
  type : PeriodType
  days : List Date
  deriving DecidableEq, Repr

/-- The `MathTask` class of `models/math_schedule.py`: one contiguous time
interval of one `Task`.  The `y_vars` back reference is not embedded (variables
are identified by their dictionary key instead). -/
structure MathTask where
  name : String
  taskType : TaskType
  index : Nat
  weekStart : Date
  days : List Date
  startDate : Date
  endDate : Date
  numberOfWeeks : Nat
  heaviness : Int
  mandatory : Bool
  deriving DecidableEq, Repr

/-- One scheduling problem instance: everything `MathSchedule` reads from its
collaborators while building the CP-SAT model.

* `unavailable` — Modelled from the spec: `PhysicianManager.is_unavailable`
  returns true iff the day lies in an unavailability interval of the
  physician; represented extensionally as the finite set of
  (physician, day) pairs for which it returns true.
* `periods` — the result of `calendar.determine_periods()`: a mapping from
  week-start date to the period blocks of that week (the source keys it by
  ISO date strings, whose lexicographic order coincides with date order).
* `links` — Modelled from the spec: the linkage manager's partial map from a
  MAIN task name to its linked CALL task name
  (`linkage_manager.get_linked_call`). -/
structure Instance where
  tasks : List Task
  physicians : List Physician
  unavailable : List (PhysName × Date)
  periods : List (Date × List Period)
  links : List (String × String)
  deriving Repr

/-- Modelled from the spec: `is_unavailable(physician, day)` (§4.2). -/
def isUnavailable (inst : Instance) (p : PhysName) (d : Date) : Bool :=
  inst.unavailable.contains (p, d)

/-- Embeds `_get_all_physicians`: the names of all physicians, in registry order. -/
def allPhysicians (inst : Instance) : List PhysName :=
  inst.physicians.map (fun ph => ph.name)

/-- Modelled from the spec: `get_physician_by_name`; returns the first
physician record with the given name (names are unique per spec §3).  The
default is never reached on names drawn from the registry. -/
def getPhysicianByName (inst : Instance) (p : PhysName) : Physician :=
  (inst.physicians.find? (fun ph => ph.name == p)).getD ⟨p, []⟩

/-- Modelled from the spec: `linkage_manager.get_linked_call(task)` — the CALL
task linked to a MAIN task, if any. -/
def getLinkedCall (inst : Instance) (task : Task) : Option String :=
  (inst.links.find? (fun l => l.1 == task.name)).map (fun l => l.2)

/-- The sorted list of week starts (`sorted(periods.keys())`). -/
def insertSorted (d : Date) : List Date → List Date
  | [] => [d]
  | x :: xs => if d ≤ x then d :: x :: xs else x :: insertSorted d xs

/-- Embeds `sorted(...)` on a list of dates (insertion sort, stable). -/
def sortDates (l : List Date) : List Date := l.foldr insertSorted []

/-- Embeds `week_starts = sorted(periods.keys())`. -/
def weekStarts (inst : Instance) : List Date :=
  sortDates (inst.periods.map (fun wp => wp.1))

/-- Embeds `periods[week_start]`: the period blocks of one week. -/
def getWeekPeriods (inst : Instance) (ws : Date) : List Period :=
  ((inst.periods.find? (fun wp => wp.1 == ws)).map (fun wp => wp.2)).getD []

/-- Embeds `_get_periods_days`: split a week's periods into (MAIN day-lists, CALL
day-lists), preserving order. -/
def getPeriodsDays (weekPeriods : List Period) : List (List Date) × List (List Date) :=
  ((weekPeriods.filter (fun p => p.type == PeriodType.MAIN)).map (fun p => p.days),
   (weekPeriods.filter (fun p => p.type == PeriodType.CALL)).map (fun p => p.days))

/-- Construction of one `MathTask` (the `MathTask(...)` calls in
`_math_create_variables`; the source reads `days[0]` and `days[-1]`, which
assumes `days` non-empty — the default `0` is never reached on the non-empty
day lists produced by the calendar). -/
def mkMathTask (task : Task) (idx : Nat) (ws : Date) (days : List Date) : MathTask :=
  { name := task.name
    taskType := task.type
    index := idx
    weekStart := ws
    days := days
    startDate := days.headD 0
    endDate := days.getLastD 0
    numberOfWeeks := 1
    heaviness := task.heaviness
    mandatory := task.mandatory }

/-- The inner `for w in range(number_of_weeks)` loop of the MULTI_WEEK branch
of `_math_create_variables`: the `MathTask`s created for the weeks
`week_nbr .. week_nbr + number_of_weeks - 1` (a week index past the end of
`week_starts` triggers the `break`; a week whose periods contain no MAIN days
contributes nothing). -/
def multiWeekTasksAt (inst : Instance) (task : Task) (ws : List Date) (weekNbr : Nat) :
    List (Date × List MathTask) :=
  (List.range task.numberOfWeeks).filterMap (fun w =>
    match ws[weekNbr + w]? with
    | none => none
    | some wkStart =>
      let mains := (getPeriodsDays (getWeekPeriods inst wkStart)).1
      if mains.isEmpty then none
      else some (wkStart, mains.map (mkMathTask task (weekNbr + w) wkStart)))

/-- The `while week_nbr < len(week_starts)` loop of `_math_create_variables`
for a MAIN task, returning the per-week groups of created `MathTask`s in
creation order (the insertion order of the `self.math_tasks[task.name]` dict).
`fuel` bounds the number of iterations; the source loop advances `week_nbr`
by `number_of_weeks ≥ 1` (MULTI_WEEK) or by 1, so `fuel = ws.length + 1`
reproduces it exactly. -/
def createMainMathTasks (inst : Instance) (task : Task) (ws : List Date) :
    Nat → Nat → List (Date × List MathTask)
  | 0, _ => []
  | fuel + 1, weekNbr =>
    if h : weekNbr < ws.length then
      if task.category.daysParameter == TaskDaysParameter.MULTI_WEEK then
        multiWeekTasksAt inst task ws weekNbr ++
          createMainMathTasks inst task ws fuel (weekNbr + task.numberOfWeeks)
      else
        let weekStart := ws[weekNbr]
        let mains := (getPeriodsDays (getWeekPeriods inst weekStart)).1
        (if mains.isEmpty then []
         else [(weekStart, mains.map (mkMathTask task weekNbr weekStart))]) ++
          createMainMathTasks inst task ws fuel (weekNbr + 1)
    else []

/-- The CALL-task branch of `_math_create_variables`: one group of `MathTask`s
per week that has CALL periods. -/
def createCallMathTasks (inst : Instance) (task : Task) (ws : List Date) :
    List (Date × List MathTask) :=
  (List.range ws.length).filterMap (fun weekNbr =>
    match ws[weekNbr]? with
    | none => none
    | some weekStart =>
      let calls := (getPeriodsDays (getWeekPeriods inst weekStart)).2
      if calls.isEmpty then none
      else some (weekStart, calls.map (mkMathTask task weekNbr weekStart)))

/-- Embeds `self.math_tasks[task.name]` after `_math_create_variables`: the per-week
groups of `MathTask`s of one task, keyed by week start, in insertion order
(which is ascending week order for every task kind). -/
def createMathTasks (inst : Instance) (task : Task) : List (Date × List MathTask) :=
  let ws := weekStarts inst
  match task.type with
  | TaskType.MAIN => createMainMathTasks inst task ws (ws.length + 1) task.weekOffset
  | TaskType.CALL => createCallMathTasks inst task ws

/-- Embeds `self.math_tasks[task.name][week_start]` (dict lookup; a key inserted
twice would have its lists merged by the `append` in the source, which is the
filter-and-join below). -/
def mathTasksAtWeek (inst : Instance) (task : Task) (ws : Date) : List MathTask :=
  (((createMathTasks inst task).filter (fun e => e.1 == ws)).map (fun e => e.2)).flatten

/-- The flattened list
`[mt for week_start in self.math_tasks[task.name] for mt in ...]` used by
`_math_create_assignment_constraints` (and, iterated over sorted week starts,
by `_get_all_math_tasks_per_task` — both give creation order since groups are
inserted in ascending week order). -/
def taskMathTasks (inst : Instance) (task : Task) : List MathTask :=
  ((createMathTasks inst task).map (fun e => e.2)).flatten

/-- Embeds `all_math_tasks_dict[name]` (`_get_all_math_tasks_per_task`), addressed by
task name; the source raises a `KeyError` for a name with no registered task,
which cannot happen for the linked call names used on it. -/
def mathTasksByName (inst : Instance) (name : String) : List MathTask :=
  match inst.tasks.find? (fun t => t.name == name) with
  | some t => taskMathTasks inst t
  | none => []

/-- A decision-variable key of the `self.y` dictionary:
`(task.name, start_date, end_date, physician)`. -/
abbrev Var := String × Date × Date × PhysName

/-- The key of the variable of a `MathTask` for a physician (`MathTask.y_var`). -/
def yVar (mt : MathTask) (p : PhysName) : Var :=
  (mt.name, mt.startDate, mt.endDate, p)

/-- All keys of `self.y` created by `_math_create_variables`. -/
def allVars (inst : Instance) : List Var :=
  (inst.tasks.map (fun t =>
    ((taskMathTasks inst t).map (fun mt =>
      (allPhysicians inst).map (yVar mt))).flatten)).flatten

/-- Embeds `self.y.get(key) is not None`: whether a variable key exists. -/
def varExists (inst : Instance) (v : Var) : Bool :=
  (allVars inst).contains v


/-- A constraint of the CP-SAT model, as added by `math_schedule.py`.

The first five shapes are the ones the source emits (`Add(y == 0)`,
`Add(sum(vars) == 1)`, `Add(sum(vars) <= 1)`, `Add(v1 == v2)`,
`Add(v1 + v2 <= 1)`).  The last two shapes are the ones the specification
describes for slack-augmented mandatory coverage (`Σ y + s = 1`) and for
main/call linkage (`y ≤ Σ y`); they are representable so that the
corresponding claims can be stated, and the development proves the code
never emits them. -/
inductive Constr where
  | eqZero (v : Var)
  | sumEqOne (vs : List Var)
  | sumLeOne (vs : List Var)
  | eqVars (v w : Var)
  | pairLeOne (v w : Var)
  | sumEqOneWithSlack (vs : List Var) (slack : Var)
  | leSum (v : Var) (vs : List Var)
  deriving DecidableEq, Repr

/-- A `constraints_info` record (`_log_constraint_info`; `physician` is `None`
for the `NoEligiblePhysicians` records). -/
structure LogRec where
  task : String
  physician : Option PhysName
  reason : String
  startDate : Date
  endDate : Date
  deriving DecidableEq, Repr

/-- Satisfaction of one constraint by a 0/1 assignment of the variables
(`sol v = true` means the solver sets `y[v] = 1`). -/
def Constr.sat (sol : Var → Bool) : Constr → Bool
  | Constr.eqZero v => !(sol v)
  | Constr.sumEqOne vs => vs.countP sol == 1
  | Constr.sumLeOne vs => decide (vs.countP sol ≤ 1)
  | Constr.eqVars v w => sol v == sol w
  | Constr.pairLeOne v w => !(sol v && sol w)
  | Constr.sumEqOneWithSlack vs s => (vs.countP sol + (if sol s then 1 else 0)) == 1
  | Constr.leSum v vs => !(sol v) || decide (1 ≤ vs.countP sol)

/-- A 0/1 assignment satisfies a whole model (list of constraints). -/
def SatAll (sol : Var → Bool) (cs : List Constr) : Prop :=
  ∀ c ∈ cs, Constr.sat sol c = true

instance (sol : Var → Bool) (cs : List Constr) : Decidable (SatAll sol cs) := by
  unfold SatAll; infer_instance

/-- Embeds `all(not is_unavailable(p, day) for day in days)`. -/
def isAvailableForDays (inst : Instance) (p : PhysName) (days : List Date) : Bool :=
  days.all (fun d => !(isUnavailable inst p d))

/-- Embeds `_math_create_physician_availability_constraints`: for every week start,
task, `MathTask` and physician, if the physician is unavailable on some day of
the task, fix the variable to zero; each emitted constraint comes with its
`constraints_info` record. -/
def availabilityItems (inst : Instance) : List (Constr × LogRec) :=
  (weekStarts inst).flatMap (fun ws =>
    inst.tasks.flatMap (fun task =>
      (mathTasksAtWeek inst task ws).flatMap (fun mt =>
        (allPhysicians inst).filterMap (fun p =>
          if isAvailableForDays inst p mt.days then none
          else some (Constr.eqZero (task.name, mt.startDate, mt.endDate, p),
                     ⟨task.name, some p, "Unavailable", mt.startDate, mt.endDate⟩)))))

/-- Embeds `_math_create_physician_eligibility_constraints`: fix the variable to zero
when the task category is in the physician's exclusion list. -/
def eligibilityItems (inst : Instance) : List (Constr × LogRec) :=
  (weekStarts inst).flatMap (fun ws =>
    inst.tasks.flatMap (fun task =>
      (mathTasksAtWeek inst task ws).flatMap (fun mt =>
        (allPhysicians inst).filterMap (fun p =>
          if (getPhysicianByName inst p).exclusionTasks.contains task.category.name then
            some (Constr.eqZero (task.name, mt.startDate, mt.endDate, p),
                  ⟨task.name, some p, "Ineligible", mt.startDate, mt.endDate⟩)
          else none))))

/-- Embeds `_is_physician_eligible` (the `MathSchedule` method: only the
`exclusion_tasks` test survives; the `restricted_tasks` test is commented
out in the source). -/
def isPhysicianEligible (inst : Instance) (p : PhysName) (task : Task) : Bool :=
  !((getPhysicianByName inst p).exclusionTasks.contains task.category.name)

/-- Embeds `_get_eligible_physicians_for_block`: physicians available on every day of
every `MathTask` of the block and eligible for the task. -/
def getEligiblePhysiciansForBlock (inst : Instance) (block : List MathTask) (task : Task) :
    List PhysName :=
  (allPhysicians inst).filter (fun p =>
    block.all (fun mt => isAvailableForDays inst p mt.days) && isPhysicianEligible inst p task)

/-- The consecutive-weeks test of `_group_math_tasks_into_blocks`:
`(block[j+1].start_date - block[j].start_date).days == 7` for all `j`. -/
def isConsecutiveWeeks : List MathTask → Bool
  | a :: b :: rest => decide (b.startDate - a.startDate = 7) && isConsecutiveWeeks (b :: rest)
  | _ => true

/-- Stable insertion into a list of `MathTask`s ordered by `start_date`. -/
def insertByStart (m : MathTask) : List MathTask → List MathTask
  | [] => [m]
  | x :: xs => if m.startDate ≤ x.startDate then m :: x :: xs else x :: insertByStart m xs

/-- Embeds `task_math_tasks.sort(key=lambda x: x.start_date)` (stable sort by start
date). -/
def sortByStart (l : List MathTask) : List MathTask := l.foldr insertByStart []

/-- The `while i <= len(task_math_tasks) - now` loop of
`_group_math_tasks_into_blocks`: slide over the sorted `MathTask`s, take a
window of `n` tasks; if the window covers consecutive weeks it becomes a
block and the window advances by `n`, otherwise by 1.  The source only calls
this with `n = number_of_weeks > 1`; `n = 0` (on which the source loop would
not terminate) returns no blocks.  `fuel` bounds the number of iterations;
every iteration shortens the list by at least one element, so
`fuel = length` reproduces the loop exactly. -/
def groupConsecutiveAux (n : Nat) : Nat → List MathTask → List (List MathTask)
  | _, [] => []
  | 0, _ :: _ => []
  | fuel + 1, x :: xs =>
    if n = 0 then []
    else if (x :: xs).length < n then []
    else if isConsecutiveWeeks ((x :: xs).take n) then
      (x :: xs).take n :: groupConsecutiveAux n fuel ((x :: xs).drop n)
    else groupConsecutiveAux n fuel xs

/-- Embeds `_group_math_tasks_into_blocks`. -/
def groupMathTasksIntoBlocks (task : Task) (taskMts : List MathTask) :
    List (List MathTask) :=
  if task.category.daysParameter == TaskDaysParameter.MULTI_WEEK && task.numberOfWeeks > 1 then
    groupConsecutiveAux task.numberOfWeeks (sortByStart taskMts).length (sortByStart taskMts)
  else
    taskMts.map (fun mt => [mt])

/-- Embeds `_intervals_overlap`. -/
def intervalsOverlap (i1 i2 : Date × Date) : Bool :=
  decide (i1.1 ≤ i2.2) && decide (i2.1 ≤ i1.2)

/-- A recorded task interval `(start_date, end_date, task_name)` of
`physician_task_intervals`. -/
abbrev TaskInterval := Date × Date × String

/-- A placeholder `MathTask`; the source indexes `block[0]` / `block[-1]`,
which assumes blocks non-empty (proved below for all produced blocks), so the
placeholder is never reached. -/
def dummyMathTask : MathTask :=
  { name := "", taskType := TaskType.MAIN, index := 0, weekStart := 0, days := []
    startDate := 0, endDate := 0, numberOfWeeks := 1, heaviness := 0, mandatory := false }

/-- A placeholder variable key (same proviso as `dummyMathTask`). -/
def dummyVar : Var := ("", 0, 0, "")

/-- The loop body of `_prevent_overlapping_assignments`: for each `MathTask`
of the block, emit `y_var + other_y_var <= 1` against every recorded interval
of the physician that overlaps it and whose `y` key exists
(`self.y.get(...) is not None`), then append the block interval
`(block[0].start_date, block[-1].end_date, block[0].name)` to the
physician's interval list.  Returns the emitted constraints and the updated
interval list. -/
def preventOverlappingAux (inst : Instance) (p : PhysName) (yv : Var)
    (blockInterval : TaskInterval) :
    List MathTask → List TaskInterval → List Constr × List TaskInterval
  | [], ivs => ([], ivs)
  | mt :: rest, ivs =>
    let cs := ivs.filterMap (fun other =>
      if intervalsOverlap (mt.startDate, mt.endDate) (other.1, other.2.1) then
        let ov : Var := (other.2.2, other.1, other.2.1, p)
        if varExists inst ov then some (Constr.pairLeOne yv ov) else none
      else none)
    let res := preventOverlappingAux inst p yv blockInterval rest (ivs ++ [blockInterval])
    (cs ++ res.1, res.2)

/-- Embeds `_get_linked_call_math_tasks`: linked CALL `MathTask`s adjacent to a
single main `MathTask`; for the CTU category the call may precede or follow,
otherwise it must start 0..2 days after the main ends. -/
def getLinkedCallMathTasks (inst : Instance) (mainMt : MathTask) (callName : String)
    (catName : String) : List MathTask :=
  if catName == "CTU" then
    (mathTasksByName inst callName).filter (fun c =>
      decide ((c.startDate - mainMt.startDate).natAbs ≤ 7) ||
      (decide (0 ≤ c.startDate - mainMt.endDate) && decide (c.startDate - mainMt.endDate ≤ 7)))
  else
    (mathTasksByName inst callName).filter (fun c =>
      decide (0 ≤ c.startDate - mainMt.endDate) && decide (c.startDate - mainMt.endDate ≤ 2))

/-- Embeds `_get_linked_call_math_tasks_multiweek`: the same selection against the
start of the first and the end of the last `MathTask` of a multi-week block. -/
def getLinkedCallMathTasksMultiweek (inst : Instance) (block : List MathTask)
    (callName : String) (catName : String) : List MathTask :=
  let mainStartDate := (block.headD dummyMathTask).startDate
  let mainEndDate := (block.getLastD dummyMathTask).endDate
  if catName == "CTU" then
    (mathTasksByName inst callName).filter (fun c =>
      decide ((c.startDate - mainStartDate).natAbs ≤ 7) ||
      (decide (0 ≤ c.startDate - mainEndDate) && decide (c.startDate - mainEndDate ≤ 7)))
  else
    (mathTasksByName inst callName).filter (fun c =>
      decide (0 ≤ c.startDate - mainEndDate) && decide (c.startDate - mainEndDate ≤ 2))

/-- The selection of linked call `MathTask`s made at the top of
`_handle_linked_call_tasks`: the multiweek variant for a multi-week task,
otherwise the single variant applied to `block[0]`. -/
def linkedCallSelection (inst : Instance) (task : Task) (block : List MathTask)
    (callName : String) : List MathTask :=
  if task.category.daysParameter == TaskDaysParameter.MULTI_WEEK && task.numberOfWeeks > 1 then
    getLinkedCallMathTasksMultiweek inst block callName task.category.name
  else
    getLinkedCallMathTasks inst (block.headD dummyMathTask) callName task.category.name

/-- Embeds `_handle_linked_call_tasks`: for every selected call `MathTask` and every
variable of the main block, emit `call_var == main_var`. -/
def handleLinkedCallTasks (inst : Instance) (p : PhysName) (task : Task)
    (block : List MathTask) (callName : String) (vars : List Var) : List Constr :=
  (linkedCallSelection inst task block callName).flatMap (fun callMt =>
    vars.map (fun mainVar => Constr.eqVars (yVar callMt p) mainVar))

/-- The `vars[j] == vars[j+1]` chain enforcing the same physician across the
weeks of a block. -/
def samePhysicianChain : List Var → List Constr
  | a :: b :: rest => Constr.eqVars a b :: samePhysicianChain (b :: rest)
  | _ => []

/-- The mutable state threaded through `_math_create_assignment_constraints`:
the constraints and log records added so far and
`physician_task_intervals`. -/
structure Accum where
  constraints : List Constr
  logs : List LogRec
  intervals : List (PhysName × List TaskInterval)
  deriving Repr

/-- Embeds `physician_task_intervals = {physician: [] for physician in all_physicians}`. -/
def initIntervals (inst : Instance) : List (PhysName × List TaskInterval) :=
  (allPhysicians inst).map (fun p => (p, []))

/-- Read `physician_task_intervals[physician]`. -/
def getIntervals (m : List (PhysName × List TaskInterval)) (p : PhysName) :
    List TaskInterval :=
  (((m.find? (fun e => e.1 == p)).map (fun e => e.2)).getD [])

/-- Overwrite `physician_task_intervals[physician]`. -/
def setIntervals (m : List (PhysName × List TaskInterval)) (p : PhysName)
    (ivs : List TaskInterval) : List (PhysName × List TaskInterval) :=
  m.map (fun e => if e.1 == p then (e.1, ivs) else e)

/-- The per-eligible-physician body of the block loop of
`_math_create_assignment_constraints`: the same-physician chain, the
overlapping-assignment constraints, the interval bookkeeping (including the
final append of `(block[0].start_date, block[-1].end_date, task.name)`), and
the linked-call constraints. -/
def processPhysician (inst : Instance) (task : Task) (linked : Option String)
    (block : List MathTask) (acc : Accum) (p : PhysName) : Accum :=
  let vars := block.map (fun mt => ((task.name, mt.startDate, mt.endDate, p) : Var))
  let chain := samePhysicianChain vars
  let blockInterval : TaskInterval :=
    ((block.headD dummyMathTask).startDate, (block.getLastD dummyMathTask).endDate,
     (block.headD dummyMathTask).name)
  let prevented := preventOverlappingAux inst p (vars.headD dummyVar) blockInterval block
    (getIntervals acc.intervals p)
  let taskInterval : TaskInterval :=
    ((block.headD dummyMathTask).startDate, (block.getLastD dummyMathTask).endDate, task.name)
  let linkCs :=
    match linked with
    | some callName => handleLinkedCallTasks inst p task block callName vars
    | none => []
  { constraints := acc.constraints ++ chain ++ prevented.1 ++ linkCs
    logs := acc.logs
    intervals := setIntervals acc.intervals p (prevented.2 ++ [taskInterval]) }

/-- The per-block body of `_math_create_assignment_constraints`: compute the
eligible physicians; with none, log `NoEligiblePhysicians` for a mandatory
task and skip the block; otherwise add the single-assignment constraint over
the first variable of each eligible physician (`== 1` when mandatory,
`<= 1` otherwise) and run the per-physician body. -/
def processBlock (inst : Instance) (task : Task) (linked : Option String)
    (acc : Accum) (block : List MathTask) : Accum :=
  let eligible := getEligiblePhysiciansForBlock inst block task
  if eligible.isEmpty then
    if task.mandatory then
      { acc with logs := acc.logs ++
          [⟨task.name, none, "NoEligiblePhysicians",
            (block.headD dummyMathTask).startDate, (block.getLastD dummyMathTask).endDate⟩] }
    else acc
  else
    let totalVars := eligible.map (fun p =>
      (block.map (fun mt => ((task.name, mt.startDate, mt.endDate, p) : Var))).headD dummyVar)
    let cover : Constr :=
      if task.mandatory then Constr.sumEqOne totalVars else Constr.sumLeOne totalVars
    eligible.foldl (processPhysician inst task linked block)
      { acc with constraints := acc.constraints ++ [cover] }

/-- Embeds `_math_create_assignment_constraints`: for each task, group its
`MathTask`s into blocks and process each block. -/
def assignmentConstraints (inst : Instance) : Accum :=
  inst.tasks.foldl (fun acc task =>
    (groupMathTasksIntoBlocks task (taskMathTasks inst task)).foldl
      (processBlock inst task (getLinkedCall inst task)) acc)
    ⟨[], [], initIntervals inst⟩

/-- The assembled CP-SAT model: constraint list, `constraints_info` records,
and the (optional) linear maximization objective. -/
structure BuiltModel where
  constraints : List Constr
  logs : List LogRec
  objective : Option (List (Int × Var))
  deriving DecidableEq, Repr

/-- Embeds `_math_create_constraints` as called from `generate_schedule`: the
availability family, then the eligibility family, then the assignment family
(the workload and desired-working-weeks families are commented out in the
source).  No objective is installed: the call to
`_math_create_objective_function` in `generate_schedule` is commented out. -/
def buildModel (inst : Instance) : BuiltModel :=
  let asg := assignmentConstraints inst
  { constraints :=
      (availabilityItems inst).map (fun it => it.1) ++
      (eligibilityItems inst).map (fun it => it.1) ++
      asg.constraints
    logs :=
      (availabilityItems inst).map (fun it => it.2) ++
      (eligibilityItems inst).map (fun it => it.2) ++
      asg.logs
    objective := none }


/-- A value stored in the `days` list of a schedule entry: either a Python
`date` object (`dte`) or an ISO-8601 date string (`str`).  ISO formatting is
a bijection between dates and their strings, so a string is represented by
the date it denotes; `dte d` and `str d` are nevertheless distinct values,
exactly as a `date` and a `str` are distinct in Python. -/
inductive DayCell where
  | dte (d : Date)
  | str (d : Date)
  deriving DecidableEq, Repr

/-- The date denoted by a cell. -/
def cellDate : DayCell → Date
  | DayCell.dte d => d
  | DayCell.str d => d

/-- Whether a cell is a `date` object. -/
def isDateCell : DayCell → Bool
  | DayCell.dte _ => true
  | DayCell.str _ => false

/-- Embeds `json.dump(..., default=str)` on a cell: a `date` object is serialized
through `str(date)`, i.e. its ISO string; a string stays itself. -/
def cellToStr : DayCell → DayCell
  | DayCell.dte d => DayCell.str d
  | DayCell.str d => DayCell.str d

/-- Embeds `date.fromisoformat` on a cell: defined on strings, raises a `TypeError`
on a `date` object (modelled as `none`). -/
def fromIso : DayCell → Option Date
  | DayCell.str d => some d
  | DayCell.dte _ => none

/-- An in-memory schedule entry, as built by `_add_to_schedule` and by
`_load_schedule_from_file`: the keys `task` (a task, identified here by its
unique name), `days`, `start_date`, `end_date`, `score`.  In a generated
schedule the `days` cells are `date` objects; in a loaded schedule they are
ISO strings. -/
structure SEntry where
  task : String
  days : List DayCell
  startDate : Date
  endDate : Date
  score : Int
  deriving DecidableEq, Repr

/-- Embeds `self.schedule`: physician name → entry list (a `defaultdict(list)`,
represented as an association list in key-insertion order). -/
abbrev Schedule := List (PhysName × List SEntry)

/-- A serialized schedule entry, as written by `save_schedule`: the task is
replaced by its name and every date field is serialized to its ISO string by
`default=str`. -/
structure JEntry where
  task : String
  days : List DayCell
  startDate : DayCell
  endDate : DayCell
  score : Int
  deriving DecidableEq, Repr

/-- Embeds `save_schedule` on one entry: `{**task, 'task': task['task'].name}`
followed by `json.dump(..., default=str)`. -/
def saveEntry (e : SEntry) : JEntry :=
  { task := e.task
    days := e.days.map cellToStr
    startDate := DayCell.str e.startDate
    endDate := DayCell.str e.endDate
    score := e.score }

/-- Embeds `save_schedule`: the serialized JSON document. -/
def saveSchedule (s : Schedule) : List (PhysName × List JEntry) :=
  s.map (fun en => (en.1, en.2.map saveEntry))

/-- The per-entry dict rebuild of `_load_schedule_from_file`:
`start_date` and `end_date` are parsed back into `date` objects with
`date.fromisoformat` (raising, modelled as `none`, if they are not strings),
`task` is resolved through `task_manager.get_task` (tasks are identified by
name here), and — notably — the `days` list is left untouched, so its cells
remain ISO strings. -/
def loadEntry (j : JEntry) : Option SEntry := do
  let s ← fromIso j.startDate
  let e ← fromIso j.endDate
  pure { task := j.task, days := j.days, startDate := s, endDate := e, score := j.score }

/-- Embeds `_load_schedule_from_file` (the dict-comprehension part, before the
assertion pass). -/
def loadSchedule (j : List (PhysName × List JEntry)) : Option Schedule :=
  j.mapM (fun en => do pure (en.1, ← en.2.mapM loadEntry))

/-- The `for i in range(len(days) - 1)` contiguity assertion of
`_load_schedule_from_file`:
`date.fromisoformat(days[i+1]) == date.fromisoformat(days[i]) + 1 day`
(parsing a non-string cell raises, modelled as `false`). -/
def contiguousCells : List DayCell → Bool
  | a :: b :: rest =>
    (match fromIso a, fromIso b with
     | some x, some y => decide (y = x + 1)
     | _, _ => false) && contiguousCells (b :: rest)
  | _ => true

/-- The assertion pass of `_load_schedule_from_file` on one entry: the task
is registered (`isinstance(task, Task)` — `get_task` yields a task only for
registered names), `start_date <= end_date`, the first and last `days`
entries parse to `start_date` and `end_date` (indexing `days[0]` of an empty
list raises, modelled as `false`), and `days` is contiguous.  The
`isinstance(start_date, date)` asserts hold by construction here. -/
def validateEntry (taskNames : List String) (e : SEntry) : Bool :=
  taskNames.contains e.task &&
  decide (e.startDate ≤ e.endDate) &&
  (match e.days.head? with
   | some c => fromIso c == some e.startDate
   | none => false) &&
  (match e.days.getLast? with
   | some c => fromIso c == some e.endDate
   | none => false) &&
  contiguousCells e.days

/-- The assertion pass of `_load_schedule_from_file` on a whole schedule:
every physician key is recognized and every entry validates. -/
def validateSchedule (allPhys : List PhysName) (taskNames : List String)
    (s : Schedule) : Bool :=
  s.all (fun en => allPhys.contains en.1 && en.2.all (validateEntry taskNames))

/-- The invariant of an entry of a schedule produced by `_math_set_solution`:
`days` is a non-empty list of `date` objects, contiguous, with
`start_date = days[0]` and `end_date = days[-1]` (contiguity of the day lists
is the calendar invariant of spec §3 on `PeriodBlock.days`). -/
def contiguousDates : List Date → Bool
  | a :: b :: rest => decide (b = a + 1) && contiguousDates (b :: rest)
  | _ => true

/-- A generated (in-memory, solver-produced) schedule entry. -/
def generatedEntry (e : SEntry) : Bool :=
  !e.days.isEmpty &&
  e.days.all isDateCell &&
  ((e.days.head?.map cellDate) == some e.startDate) &&
  ((e.days.getLast?.map cellDate) == some e.endDate) &&
  contiguousDates (e.days.map cellDate)

/-- Embeds `defaultdict(list)` append: `self.schedule[physician].append(entry)`. -/
def addToSchedule (sched : Schedule) (p : PhysName) (e : SEntry) : Schedule :=
  if sched.any (fun en => en.1 == p) then
    sched.map (fun en => if en.1 == p then (en.1, en.2 ++ [e]) else en)
  else
    sched ++ [(p, [e])]

/-- Embeds `_math_set_solution` combined with `_add_to_schedule`: for every relevant
week, task, `MathTask` of that week and physician with `y` set, append the
assignment record `{task, days, start_date, end_date, score}` (the score is
the placeholder 0 of the source). -/
def mathSetSolution (inst : Instance) (sol : Var → Bool) : Schedule :=
  inst.periods.foldl (fun sched wp =>
    inst.tasks.foldl (fun sched task =>
      (mathTasksAtWeek inst task wp.1).foldl (fun sched mt =>
        (allPhysicians inst).foldl (fun sched p =>
          if sol (task.name, mt.startDate, mt.endDate, p) then
            addToSchedule sched p
              ⟨task.name, mt.days.map DayCell.dte, mt.days.headD 0, mt.days.getLastD 0, 0⟩
          else sched) sched) sched) sched) []

/-- Embeds `max(task.number_of_weeks for task in tasks)` (the source `max(...)`
raises on an empty registry; the registry is never empty when
`generate_schedule` runs). -/
def maxNumberOfWeeks (tasks : List Task) : Nat :=
  (tasks.map (fun t => t.numberOfWeeks)).foldl max 0

/-- Embeds `_extend_scheduling_period`:
`scheduling_period[1] + timedelta(weeks=max_task_duration)`. -/
def extendSchedulingPeriod (endDate : Date) (tasks : List Task) : Date :=
  endDate + 7 * (maxNumberOfWeeks tasks : Int)

/-- Embeds `_filter_relevant_periods`: keep the weeks whose start lies in
`[start_date, end_date]` (both inclusive). -/
def filterRelevantPeriods (periods : List (Date × List Period)) (s e : Date) :
    List (Date × List Period) :=
  periods.filter (fun wp => decide (s ≤ wp.1) && decide (wp.1 ≤ e))

/-- CP-SAT solver status. -/
inductive SolverStatus where
  | OPTIMAL
  | FEASIBLE
  | INFEASIBLE
  | MODEL_INVALID
  | UNKNOWN
  deriving DecidableEq, Repr

/-- The mutable state of a `MathSchedule` object that `generate_schedule`
touches. -/
structure MSState where
  schedulingPeriod : Option (Date × Date)
  schedule : Schedule
  deriving DecidableEq, Repr

/-- An exception escaping `generate_schedule`:
the `ValueError("Scheduling period must be set ...")` and the
`AssertionError` for a missing initial schedule. -/
inductive GenErr where
  | schedulingPeriodUnset
  | noInitialSchedule
  deriving DecidableEq, Repr

/-- The observable outcome of one `generate_schedule` call: the normal or
exceptional result, the object state afterwards, and the CP-SAT model that
was built (`none` when the call aborted before model construction). -/
structure GenOutcome where
  result : Except GenErr Unit
  state : MSState
  builtModel : Option BuiltModel
  deriving Repr

/-- Embeds `generate_schedule`: check the scheduling period is set, extend the
horizon, filter the relevant calendar periods, build variables and
constraints (no objective — that call is commented out in the source), solve,
and on `OPTIMAL`/`FEASIBLE` replace the stored schedule with the solution;
on any other status only log `Schedule infeasible` and return normally,
leaving the stored schedule untouched.  The solver itself is abstracted by
its reported `status` and its 0/1 answer `sol`. -/
def generateSchedule (inst : Instance) (st : MSState) (useInitialSchedule : Bool)
    (status : SolverStatus) (sol : Var → Bool) : GenOutcome :=
  match st.schedulingPeriod with
  | none => ⟨Except.error GenErr.schedulingPeriodUnset, st, none⟩
  | some (startDate, endDate) =>
    if useInitialSchedule && st.schedule.isEmpty then
      ⟨Except.error GenErr.noInitialSchedule, st, none⟩
    else
      let extendedEndDate := extendSchedulingPeriod endDate inst.tasks
      let relevantPeriods := filterRelevantPeriods inst.periods startDate extendedEndDate
      let inst' := { inst with periods := relevantPeriods }
      let model := buildModel inst'
      if status == SolverStatus.OPTIMAL || status == SolverStatus.FEASIBLE then
        ⟨Except.ok (), { st with schedule := mathSetSolution inst' sol }, some model⟩
      else
        ⟨Except.ok (), st, some model⟩


/-- The flattened sequence of (task, block) pairs that
`_math_create_assignment_constraints` processes, in processing order. -/
def blockJobs (inst : Instance) : List (Task × List MathTask) :=
  inst.tasks.flatMap (fun t =>
    (groupMathTasksIntoBlocks t (taskMathTasks inst t)).map (fun b => (t, b)))

/-- The single step of the assignment pass on one (task, block) job. -/
def jobStep (inst : Instance) (acc : Accum) (job : Task × List MathTask) : Accum :=
  processBlock inst job.1 (getLinkedCall inst job.1) acc job.2

/-- Whether a constraint is a slack-augmented coverage constraint
(`Σ y + s = 1`), the shape spec §4.5 C3 prescribes for mandatory blocks with
no eligible physician. -/
def isSlackConstraint : Constr → Bool
  | Constr.sumEqOneWithSlack _ _ => true
  | _ => false

/-- Whether a constraint is a linkage inequality (`y ≤ Σ y`), the shape
spec §4.5 C5 prescribes for linked call blocks. -/
def isLeSumConstraint : Constr → Bool
  | Constr.leSum _ _ => true
  | _ => false

/-- A schedule entry with its `days` cells turned into ISO strings — the
image of a generated entry after one save/load round trip. -/
def stringifyEntry (e : SEntry) : SEntry :=
  { e with days := e.days.map cellToStr }

/-- A schedule after one save/load round trip. -/
def stringifySchedule (s : Schedule) : Schedule :=
  s.map (fun en => (en.1, en.2.map stringifyEntry))

/-! ## Concrete instances used by the counterexamples and witnesses -/

/-- A MULTI_WEEK category (the CTU category of the seed scenarios). -/
def catCTU : TaskCategory := ⟨"CTU", TaskDaysParameter.MULTI_WEEK⟩

/-- A CONTINUOUS (single-week) category. -/
def catER : TaskCategory := ⟨"ER", TaskDaysParameter.CONTINUOUS⟩

/-- A mandatory two-week MAIN task of the CTU category. -/
def tCTU : Task := ⟨"CTU_M", TaskType.MAIN, catCTU, 0, 2, 1, true⟩

/-- A mandatory single-week MAIN task. -/
def tER : Task := ⟨"ER_M", TaskType.MAIN, catER, 0, 1, 1, true⟩

/-- Two MAIN weeks (Mon–Fri of two consecutive weeks). -/
def twoMainWeeks : List (Date × List Period) :=
  [(0, [⟨PeriodType.MAIN, [0, 1, 2, 3, 4]⟩]),
   (7, [⟨PeriodType.MAIN, [7, 8, 9, 10, 11]⟩])]

/-- Instance for claim C2: a two-week CTU task and a single-week task over
the same two weeks, two fully available physicians. -/
def inst2 : Instance :=
  { tasks := [tCTU, tER]
    physicians := [⟨"p", []⟩, ⟨"q", []⟩]
    unavailable := []
    periods := twoMainWeeks
    links := [] }

/-- The second-week `MathTask` of the two-week CTU task in `inst2`. -/
def mtCTUw2 : MathTask :=
  ⟨"CTU_M", TaskType.MAIN, 1, 7, [7, 8, 9, 10, 11], 7, 11, 1, 1, true⟩

/-- The second-week `MathTask` of the single-week task in `inst2`. -/
def mtERw2 : MathTask :=
  ⟨"ER_M", TaskType.MAIN, 1, 7, [7, 8, 9, 10, 11], 7, 11, 1, 1, true⟩

/-- A solution of the `inst2` model in which physician p holds both the full
CTU block and the overlapping second-week single-week block. -/
def sol2 : Var → Bool := fun v =>
  v == ("CTU_M", 0, 4, "p") || v == ("CTU_M", 7, 11, "p") ||
  v == ("ER_M", 0, 4, "q") || v == ("ER_M", 7, 11, "p")

/-- Instance for claim C3: the two-week CTU task, physician q unavailable on
day 0 only (so q is not eligible for the two-week block but is free in its
second week). -/
def inst3 : Instance :=
  { tasks := [tCTU]
    physicians := [⟨"p", []⟩, ⟨"q", []⟩]
    unavailable := [("q", 0)]
    periods := twoMainWeeks
    links := [] }

/-- The first-week `MathTask` of the CTU task in `inst3`. -/
def mtCTUw1 : MathTask :=
  ⟨"CTU_M", TaskType.MAIN, 0, 0, [0, 1, 2, 3, 4], 0, 4, 1, 1, true⟩

/-- A solution of the `inst3` model in which q is assigned the second member
of the multi-week group but not the first. -/
def sol3 : Var → Bool := fun v =>
  v == ("CTU_M", 0, 4, "p") || v == ("CTU_M", 7, 11, "p") || v == ("CTU_M", 7, 11, "q")

/-- A non-mandatory single-week MAIN task (instance for claim C4). -/
def tM4 : Task := ⟨"ER_M", TaskType.MAIN, catER, 0, 1, 1, false⟩

/-- The linked mandatory CALL task of the same category. -/
def tC4 : Task := ⟨"ER_C", TaskType.CALL, catER, 0, 1, 1, true⟩

/-- Instance for claim C4: a linked MAIN/CALL pair over one week; physician q
is unavailable on the weekdays (so only on call), physician p is fully
available. -/
def inst4 : Instance :=
  { tasks := [tM4, tC4]
    physicians := [⟨"p", []⟩, ⟨"q", []⟩]
    unavailable := [("q", 0), ("q", 1), ("q", 2), ("q", 3), ("q", 4)]
    periods := [(0, [⟨PeriodType.MAIN, [0, 1, 2, 3, 4]⟩, ⟨PeriodType.CALL, [5, 6]⟩])]
    links := [("ER_M", "ER_C")] }

/-- The MAIN `MathTask` of `inst4`. -/
def mtM4 : MathTask :=
  ⟨"ER_M", TaskType.MAIN, 0, 0, [0, 1, 2, 3, 4], 0, 4, 1, 1, false⟩

/-- The CALL `MathTask` of `inst4`. -/
def mtC4 : MathTask :=
  ⟨"ER_C", TaskType.CALL, 0, 0, [5, 6], 5, 6, 1, 1, true⟩

/-- A solution of the `inst4` model in which q holds the call block while no
adjacent main block is assigned to q. -/
def sol4 : Var → Bool := fun v => v == ("ER_C", 5, 6, "q")

/-- A mandatory single-week MAIN task used for claims C5/C6/C8/C10. -/
def tOne : Task := ⟨"ER_M", TaskType.MAIN, catER, 0, 1, 1, true⟩

/-- Instance for claim C5: the only physician is excluded from the only
(mandatory) task, so the block's eligible set is empty. -/
def inst5 : Instance :=
  { tasks := [tOne]
    physicians := [⟨"p", ["ER"]⟩]
    unavailable := []
    periods := [(0, [⟨PeriodType.MAIN, [0, 1, 2, 3, 4]⟩])]
    links := [] }

/-- The single `MathTask` of `inst5`. -/
def mtOne : MathTask :=
  ⟨"ER_M", TaskType.MAIN, 0, 0, [0, 1, 2, 3, 4], 0, 4, 1, 1, true⟩

/-- The all-zero solver assignment. -/
def solZero : Var → Bool := fun _ => false

/-- Tasks of one and two weeks (instance for claim C7). -/
def tW1 : Task := ⟨"W1", TaskType.MAIN, catER, 0, 1, 1, true⟩

/-- The two-week task of `inst7`. -/
def tW2 : Task := ⟨"W2", TaskType.MAIN, catCTU, 0, 2, 1, true⟩

/-- Instance for claim C7: three calendar weeks, a one-week and a two-week
task, scheduling period `[0, 0]`. -/
def inst7 : Instance :=
  { tasks := [tW1, tW2]
    physicians := [⟨"p", []⟩]
    unavailable := []
    periods := [(0, [⟨PeriodType.MAIN, [0, 1, 2, 3, 4]⟩]),
                (7, [⟨PeriodType.MAIN, [7, 8, 9, 10, 11]⟩]),
                (14, [⟨PeriodType.MAIN, [14, 15, 16, 17, 18]⟩])]
    links := [] }

/-- A stored schedule entry used by the C8/C10 scenarios. -/
def demoEntry : SEntry := ⟨"ER_M", [DayCell.dte 0, DayCell.dte 1], 0, 1, 0⟩

/-- A non-empty previously stored schedule. -/
def demoSchedule : Schedule := [("p", [demoEntry])]

/-- State for claim C8: scheduling period set, a previous schedule stored. -/
def st8 : MSState := ⟨some (0, 4), demoSchedule⟩

/-- State for claim C10: scheduling period never set. -/
def st10 : MSState := ⟨none, demoSchedule⟩

/-- A generated schedule used by the C9 round-trip counterexample. -/
def sched9 : Schedule := [("p", [⟨"ER_M", [DayCell.dte 0, DayCell.dte 1], 0, 1, 0⟩])]


/-- The keys of the interval map. -/
def keysOf (m : List (PhysName × List TaskInterval)) : List PhysName :=
  m.map (fun e => e.1)

/-- The shapes the source actually emits: never a slack-augmented coverage
constraint, never a linkage inequality. -/
def emittedShape (c : Constr) : Prop :=
  isSlackConstraint c = false ∧ isLeSumConstraint c = false

/-- A second CONTINUOUS category for the C2 witness instance. -/
def catER2 : TaskCategory := ⟨"ER2", TaskDaysParameter.CONTINUOUS⟩

/-- A second mandatory single-week MAIN task over the same week. -/
def tERb : Task := ⟨"ER2_M", TaskType.MAIN, catER2, 0, 1, 1, true⟩

/-- Witness instance for the corrected C2: two single-week tasks over the
same MAIN week, one physician. -/
def instPair : Instance :=
  { tasks := [tER, tERb]
    physicians := [⟨"p", []⟩]
    unavailable := []
    periods := [(0, [⟨PeriodType.MAIN, [0, 1, 2, 3, 4]⟩])]
    links := [] }

/-- The `MathTask` of the first task of `instPair`. -/
def mtERa : MathTask :=
  ⟨"ER_M", TaskType.MAIN, 0, 0, [0, 1, 2, 3, 4], 0, 4, 1, 1, true⟩

/-- The `MathTask` of the second task of `instPair`. -/
def mtERb : MathTask :=
  ⟨"ER2_M", TaskType.MAIN, 0, 0, [0, 1, 2, 3, 4], 0, 4, 1, 1, true⟩

/-! ## Claims about `generate_schedule` control flow (C6, C7, C8, C10) -/

/-- Claim C10 (confirmed): calling `generate_schedule` before a scheduling
period has been set raises `ValueError` before any model construction or
solving, and the stored schedule is left unchanged (the outcome carries the
unchanged state and no built model). -/
theorem claim_C10_no_period_raises (inst : Instance) (st : MSState)
    (ui : Bool) (status : SolverStatus) (sol : Var → Bool)
    (h : st.schedulingPeriod = none) :
    generateSchedule inst st ui status sol =
      ⟨Except.error GenErr.schedulingPeriodUnset, st, none⟩ := by
  unfold generateSchedule
  rw [h]

/-- Witness for C10 at a concrete input. -/
theorem claim_C10_no_period_raises_witness :
    st10.schedulingPeriod = none ∧
    generateSchedule inst5 st10 false SolverStatus.OPTIMAL solZero =
      ⟨Except.error GenErr.schedulingPeriodUnset, st10, none⟩ :=
  ⟨rfl, claim_C10_no_period_raises inst5 st10 false SolverStatus.OPTIMAL solZero rfl⟩

/-- Counterexample to claim C8: with the scheduling period set, a non-empty
stored schedule and an INFEASIBLE solver status, `generate_schedule` returns
normally (no `InfeasibleError` exists in the source) and the previously
stored schedule is still the stored result. -/
theorem claim_C8_counterexample :
    st8.schedule ≠ [] ∧
    (generateSchedule inst5 st8 false SolverStatus.INFEASIBLE solZero).result =
      Except.ok () ∧
    (generateSchedule inst5 st8 false SolverStatus.INFEASIBLE solZero).state = st8 :=
  ⟨by decide, rfl, rfl⟩

/-- Claim C8 (corrected): when the solver status is neither OPTIMAL nor
FEASIBLE, `generate_schedule` only logs `Schedule infeasible` and returns
normally; no exception is raised and the object state (in particular the
previously stored schedule) is unchanged. -/
theorem claim_C8_infeasible_returns_normally (inst : Instance) (st : MSState)
    (sd ed : Date) (ui : Bool) (status : SolverStatus) (sol : Var → Bool)
    (h : st.schedulingPeriod = some (sd, ed))
    (hui : ¬(ui = true ∧ st.schedule = []))
    (h1 : status ≠ SolverStatus.OPTIMAL) (h2 : status ≠ SolverStatus.FEASIBLE) :
    (generateSchedule inst st ui status sol).result = Except.ok () ∧
    (generateSchedule inst st ui status sol).state = st := by
  have hcond : (ui && st.schedule.isEmpty) = false := by
    cases ui with
    | false => rfl
    | true =>
      cases hsch : st.schedule with
      | nil => exact absurd ⟨rfl, hsch⟩ hui
      | cons a l => rfl
  have hstat : (status == SolverStatus.OPTIMAL || status == SolverStatus.FEASIBLE) = false := by
    cases status <;> simp_all
  unfold generateSchedule
  rw [h]
  dsimp only
  rw [if_neg (by rw [hcond]; exact Bool.false_ne_true),
      if_neg (by rw [hstat]; exact Bool.false_ne_true)]
  exact ⟨rfl, rfl⟩

/-- Witness for the corrected C8 at a concrete input. -/
theorem claim_C8_infeasible_returns_normally_witness :
    (st8.schedulingPeriod = some (0, 4) ∧ ¬(false = true ∧ st8.schedule = [])) ∧
    (generateSchedule inst5 st8 false SolverStatus.INFEASIBLE solZero).result =
      Except.ok () ∧
    (generateSchedule inst5 st8 false SolverStatus.INFEASIBLE solZero).state = st8 :=
  ⟨⟨rfl, fun hc => Bool.false_ne_true hc.1⟩,
   claim_C8_infeasible_returns_normally inst5 st8 0 4 false SolverStatus.INFEASIBLE solZero
     rfl (fun hc => Bool.false_ne_true hc.1) (by decide) (by decide)⟩

/-- Counterexample to claim C7: with a one-week and a two-week task the
extension used by `generate_schedule` is `end_date + 14` days
(`timedelta(weeks=max_number_of_weeks)`), not the claimed
`end_date + (max_number_of_weeks - 1) * 7 = end_date + 7`, and the calendar
weeks are filtered with the larger horizon (week 14 is kept). -/
theorem claim_C7_counterexample :
    maxNumberOfWeeks inst7.tasks = 2 ∧
    extendSchedulingPeriod 0 inst7.tasks = 14 ∧
    (0 : Date) + ((2 : Int) - 1) * 7 = 7 ∧
    (generateSchedule inst7 ⟨some (0, 0), []⟩ false SolverStatus.INFEASIBLE solZero).builtModel =
      some (buildModel { inst7 with periods := filterRelevantPeriods inst7.periods 0 14 }) ∧
    filterRelevantPeriods inst7.periods 0 14 ≠ filterRelevantPeriods inst7.periods 0 7 :=
  ⟨rfl, rfl, rfl, rfl, by decide⟩

/-- Claim C7 (corrected): the effective horizon used to filter calendar
periods is `end_date + max_number_of_weeks × 7` days — one full week more
than the claimed `end_date + (max_number_of_weeks − 1) × 7`. -/
theorem claim_C7_extended_horizon (inst : Instance) (st : MSState)
    (sd ed : Date) (ui : Bool) (status : SolverStatus) (sol : Var → Bool)
    (h : st.schedulingPeriod = some (sd, ed))
    (hui : ¬(ui = true ∧ st.schedule = [])) :
    (generateSchedule inst st ui status sol).builtModel =
      some (buildModel { inst with
                         periods := filterRelevantPeriods inst.periods sd
                           (ed + 7 * (maxNumberOfWeeks inst.tasks : Int)) }) := by
  have hcond : (ui && st.schedule.isEmpty) = false := by
    cases ui with
    | false => rfl
    | true =>
      cases hsch : st.schedule with
      | nil => exact absurd ⟨rfl, hsch⟩ hui
      | cons a l => rfl
  unfold generateSchedule
  rw [h]
  dsimp only
  rw [if_neg (by rw [hcond]; exact Bool.false_ne_true)]
  by_cases hs : (status == SolverStatus.OPTIMAL || status == SolverStatus.FEASIBLE) = true
  · rw [if_pos hs]; rfl
  · rw [if_neg hs]; rfl

/-- Witness for the corrected C7 at a concrete input. -/
theorem claim_C7_extended_horizon_witness :
    ((⟨some (0, 0), []⟩ : MSState).schedulingPeriod = some (0, 0) ∧
      ¬(false = true ∧ (⟨some (0, 0), []⟩ : MSState).schedule = [])) ∧
    (generateSchedule inst7 ⟨some (0, 0), []⟩ false SolverStatus.INFEASIBLE solZero).builtModel =
      some (buildModel { inst7 with
                         periods := filterRelevantPeriods inst7.periods 0
                           (0 + 7 * (maxNumberOfWeeks inst7.tasks : Int)) }) :=
  ⟨⟨rfl, fun hc => Bool.false_ne_true hc.1⟩,
   claim_C7_extended_horizon inst7 ⟨some (0, 0), []⟩ 0 0 false SolverStatus.INFEASIBLE solZero
     rfl (fun hc => Bool.false_ne_true hc.1)⟩

/-- Counterexample to claim C6: `generate_schedule` builds and solves the
model with no objective at all (the call to
`_math_create_objective_function` is commented out in the source), so no
`Maximize` of bonuses minus slack penalties is installed. -/
theorem claim_C6_counterexample :
    ((generateSchedule inst5 ⟨some (0, 4), []⟩ false SolverStatus.OPTIMAL solZero).builtModel).map
      BuiltModel.objective = some none := rfl

/-- Claim C6 (corrected): every model built by `generate_schedule` carries no
objective; the solve is a pure feasibility search. -/
theorem claim_C6_no_objective (inst : Instance) (st : MSState)
    (ui : Bool) (status : SolverStatus) (sol : Var → Bool) (m : BuiltModel)
    (h : (generateSchedule inst st ui status sol).builtModel = some m) :
    m.objective = none := by
  unfold generateSchedule at h
  cases hp : st.schedulingPeriod with
  | none => rw [hp] at h; exact absurd h (by simp)
  | some pr =>
    obtain ⟨sd, ed⟩ := pr
    rw [hp] at h
    dsimp only at h
    by_cases hcond : (ui && st.schedule.isEmpty) = true
    · rw [if_pos hcond] at h
      exact absurd h (by simp)
    · rw [if_neg hcond] at h
      by_cases hs : (status == SolverStatus.OPTIMAL || status == SolverStatus.FEASIBLE) = true
      · rw [if_pos hs] at h
        simp only [Option.some_inj] at h
        rw [← h]
        rfl
      · rw [if_neg hs] at h
        simp only [Option.some_inj] at h
        rw [← h]
        rfl

/-- Witness for the corrected C6 at a concrete input. -/
theorem claim_C6_no_objective_witness :
    ((generateSchedule inst5 ⟨some (0, 4), []⟩ false SolverStatus.OPTIMAL solZero).builtModel =
      some (buildModel { inst5 with periods := filterRelevantPeriods inst5.periods 0 11 })) ∧
    (buildModel { inst5 with periods := filterRelevantPeriods inst5.periods 0 11 }).objective =
      none :=
  ⟨rfl,
   claim_C6_no_objective inst5 ⟨some (0, 4), []⟩ false SolverStatus.OPTIMAL solZero _ rfl⟩


/-! ## Counterexamples for the constraint-family claims (C2, C3, C4, C5) -/

/-- Counterexample to claim C2: in `inst2` the second week of the two-week
CTU block and the second single-week block have identical day ranges, yet the
model contains no `y[b1,p] + y[b2,p] <= 1` for physician p in either
orientation (the stored interval of the multi-week block has no `y` key, so
`_prevent_overlapping_assignments` silently skips it), and the solution
`sol2` satisfies every constraint of the model while assigning physician p
both blocks, whose day sets intersect. -/
theorem claim_C2_counterexample :
    tCTU ∈ inst2.tasks ∧ tER ∈ inst2.tasks ∧
    mtCTUw2 ∈ taskMathTasks inst2 tCTU ∧ mtERw2 ∈ taskMathTasks inst2 tER ∧
    "p" ∈ allPhysicians inst2 ∧
    intervalsOverlap (mtCTUw2.startDate, mtCTUw2.endDate)
      (mtERw2.startDate, mtERw2.endDate) = true ∧
    Constr.pairLeOne (yVar mtCTUw2 "p") (yVar mtERw2 "p") ∉ (buildModel inst2).constraints ∧
    Constr.pairLeOne (yVar mtERw2 "p") (yVar mtCTUw2 "p") ∉ (buildModel inst2).constraints ∧
    SatAll sol2 (buildModel inst2).constraints ∧
    sol2 (yVar mtCTUw2 "p") = true ∧ sol2 (yVar mtERw2 "p") = true ∧
    mtCTUw2.days.filter (fun d => mtERw2.days.contains d) ≠ [] := by
  decide

/-- Counterexample to claim C3: in `inst3` the multi-week group
`[mtCTUw1, mtCTUw2]` is formed, physician q belongs to the registry, yet the
model contains no `y[b1,q] = y[b2,q]` coherence constraint for q (q is not
eligible for the block, being unavailable on day 0), and the solution `sol3`
satisfies every constraint while assigning q the second member of the group
and not the first — so members of the group are neither all assigned to one
physician nor all unassigned. -/
theorem claim_C3_counterexample :
    [mtCTUw1, mtCTUw2] ∈ groupMathTasksIntoBlocks tCTU (taskMathTasks inst3 tCTU) ∧
    "q" ∈ allPhysicians inst3 ∧
    Constr.eqVars (yVar mtCTUw1 "q") (yVar mtCTUw2 "q") ∉ (buildModel inst3).constraints ∧
    Constr.eqVars (yVar mtCTUw2 "q") (yVar mtCTUw1 "q") ∉ (buildModel inst3).constraints ∧
    SatAll sol3 (buildModel inst3).constraints ∧
    sol3 (yVar mtCTUw2 "q") = true ∧ sol3 (yVar mtCTUw1 "q") = false := by
  decide

/-- Counterexample to claim C4: in `inst4` the call block `mtC4` of the
linked call task is adjacent (per `_get_linked_call_math_tasks`) to the main
block `mtM4`, yet no inequality `y[b_c,p] ≤ Σ y[b_m,p]` of any form exists in
the model (the source emits equalities `call_var == main_var` instead, and
only for physicians eligible for the main block), and the solution `sol4`
satisfies every constraint while assigning the call block to physician q with
no adjacent main block assigned to q. -/
theorem claim_C4_counterexample :
    getLinkedCall inst4 tM4 = some "ER_C" ∧
    mtM4 ∈ taskMathTasks inst4 tM4 ∧
    mtC4 ∈ getLinkedCallMathTasks inst4 mtM4 "ER_C" "ER" ∧
    "q" ∈ allPhysicians inst4 ∧
    (∀ c ∈ (buildModel inst4).constraints, isLeSumConstraint c = false) ∧
    SatAll sol4 (buildModel inst4).constraints ∧
    sol4 (yVar mtC4 "q") = true ∧ sol4 (yVar mtM4 "q") = false := by
  decide

/-- Counterexample to claim C5: in `inst5` the only block is mandatory and
its eligible set is empty, yet the model contains no slack-augmented coverage
constraint `Σ y[b,p] + s[b] = 1` (nor any slack variable): the source merely
logs a warning and a `NoEligiblePhysicians` record and skips the block. -/
theorem claim_C5_counterexample :
    tOne ∈ inst5.tasks ∧ tOne.mandatory = true ∧
    [mtOne] ∈ groupMathTasksIntoBlocks tOne (taskMathTasks inst5 tOne) ∧
    getEligiblePhysiciansForBlock inst5 [mtOne] tOne = [] ∧
    (∀ c ∈ (buildModel inst5).constraints, isSlackConstraint c = false) := by
  decide

/-! ## Claim C9: save/load round trip -/

/-- Counterexample to claim C9: one save/load round trip does not return an
equal schedule — the entries of `days` come back as ISO strings
(`_load_schedule_from_file` converts `start_date` and `end_date` back to
dates but leaves `days` untouched), while the generated schedule holds date
objects there. -/
theorem claim_C9_counterexample :
    (∀ en ∈ sched9, ∀ e ∈ en.2, generatedEntry e = true) ∧
    loadSchedule (saveSchedule sched9) ≠ some sched9 := by
  decide


/-! ## Helper lemmas: sorting, grouping and `MathTask` creation -/

theorem mem_insertByStart {mt a : MathTask} {l : List MathTask} :
    mt ∈ insertByStart a l ↔ mt = a ∨ mt ∈ l := by
  induction l with
  | nil => simp [insertByStart]
  | cons b l ih =>
    unfold insertByStart
    by_cases h : a.startDate ≤ b.startDate
    · simp [h]
    · simp only [h, if_false, List.mem_cons, ih]
      tauto

theorem mem_sortByStart {mt : MathTask} {l : List MathTask} :
    mt ∈ sortByStart l ↔ mt ∈ l := by
  induction l with
  | nil => simp [sortByStart]
  | cons a l ih =>
    show mt ∈ insertByStart a (sortByStart l) ↔ _
    rw [mem_insertByStart, ih]
    simp

theorem groupConsecutiveAux_subset {n : Nat} :
    ∀ {fuel : Nat} {l B : List MathTask}, B ∈ groupConsecutiveAux n fuel l →
      ∀ mt ∈ B, mt ∈ l := by
  intro fuel
  induction fuel with
  | zero =>
    intro l B hB
    cases l <;> simp [groupConsecutiveAux] at hB
  | succ fuel ih =>
    intro l B hB
    cases l with
    | nil => simp [groupConsecutiveAux] at hB
    | cons x xs =>
      unfold groupConsecutiveAux at hB
      by_cases h0 : n = 0
      · simp [h0] at hB
      · rw [if_neg h0] at hB
        by_cases hlen : (x :: xs).length < n
        · rw [if_pos hlen] at hB
          simp at hB
        · rw [if_neg hlen] at hB
          by_cases hcons : isConsecutiveWeeks ((x :: xs).take n) = true
          · rw [if_pos hcons] at hB
            rcases List.mem_cons.mp hB with hB | hB
            · intro mt hmt
              rw [hB] at hmt
              exact List.take_subset n _ hmt
            · intro mt hmt
              exact List.drop_subset n _ (ih hB mt hmt)
          · rw [if_neg hcons] at hB
            intro mt hmt
            exact List.mem_cons_of_mem x (ih hB mt hmt)

theorem groupConsecutiveAux_ne_nil {n : Nat} :
    ∀ {fuel : Nat} {l B : List MathTask}, B ∈ groupConsecutiveAux n fuel l → B ≠ [] := by
  intro fuel
  induction fuel with
  | zero =>
    intro l B hB
    cases l <;> simp [groupConsecutiveAux] at hB
  | succ fuel ih =>
    intro l B hB
    cases l with
    | nil => simp [groupConsecutiveAux] at hB
    | cons x xs =>
      unfold groupConsecutiveAux at hB
      by_cases h0 : n = 0
      · simp [h0] at hB
      · rw [if_neg h0] at hB
        by_cases hlen : (x :: xs).length < n
        · rw [if_pos hlen] at hB
          simp at hB
        · rw [if_neg hlen] at hB
          by_cases hcons : isConsecutiveWeeks ((x :: xs).take n) = true
          · rw [if_pos hcons] at hB
            rcases List.mem_cons.mp hB with hB | hB
            · rw [hB]
              cases n with
              | zero => exact absurd rfl h0
              | succ m => simp
            · exact ih hB
          · rw [if_neg hcons] at hB
            exact ih hB

theorem groupBlocks_subset {task : Task} {mts B : List MathTask}
    (hB : B ∈ groupMathTasksIntoBlocks task mts) : ∀ mt ∈ B, mt ∈ mts := by
  unfold groupMathTasksIntoBlocks at hB
  by_cases h : (task.category.daysParameter == TaskDaysParameter.MULTI_WEEK &&
      decide (task.numberOfWeeks > 1)) = true
  · rw [if_pos h] at hB
    intro mt hmt
    exact mem_sortByStart.mp (groupConsecutiveAux_subset hB mt hmt)
  · rw [if_neg h] at hB
    rcases List.mem_map.mp hB with ⟨a, ha, hae⟩
    intro mt hmt
    rw [← hae] at hmt
    simp at hmt
    rw [hmt]
    exact ha

theorem groupBlocks_ne_nil {task : Task} {mts B : List MathTask}
    (hB : B ∈ groupMathTasksIntoBlocks task mts) : B ≠ [] := by
  unfold groupMathTasksIntoBlocks at hB
  by_cases h : (task.category.daysParameter == TaskDaysParameter.MULTI_WEEK &&
      decide (task.numberOfWeeks > 1)) = true
  · rw [if_pos h] at hB
    exact groupConsecutiveAux_ne_nil hB
  · rw [if_neg h] at hB
    rcases List.mem_map.mp hB with ⟨a, _, hae⟩
    rw [← hae]
    simp

theorem mem_multiWeekTasksAt {inst : Instance} {task : Task} {ws : List Date}
    {weekNbr : Nat} {e : Date × List MathTask}
    (he : e ∈ multiWeekTasksAt inst task ws weekNbr) :
    e.1 ∈ ws ∧ ∀ mt ∈ e.2, mt.name = task.name := by
  rcases List.mem_filterMap.mp he with ⟨w, _, hw⟩
  cases hg : ws[weekNbr + w]? with
  | none => rw [hg] at hw; exact absurd hw (by simp)
  | some wkStart =>
    rw [hg] at hw
    dsimp only at hw
    by_cases hm : ((getPeriodsDays (getWeekPeriods inst wkStart)).1).isEmpty = true
    · rw [if_pos hm] at hw
      exact absurd hw (by simp)
    · rw [if_neg hm] at hw
      simp only [Option.some_inj] at hw
      rw [← hw]
      refine ⟨List.getElem?_mem hg, ?_⟩
      intro mt hmt
      rcases List.mem_map.mp hmt with ⟨days, _, hd⟩
      rw [← hd]
      rfl

theorem mem_createMainMathTasks {inst : Instance} {task : Task} {ws : List Date} :
    ∀ {fuel weekNbr : Nat} {e : Date × List MathTask},
      e ∈ createMainMathTasks inst task ws fuel weekNbr →
      e.1 ∈ ws ∧ ∀ mt ∈ e.2, mt.name = task.name := by
  intro fuel
  induction fuel with
  | zero => intro weekNbr e he; simp [createMainMathTasks] at he
  | succ fuel ih =>
    intro weekNbr e he
    unfold createMainMathTasks at he
    by_cases hlt : weekNbr < ws.length
    · rw [dif_pos hlt] at he
      by_cases hmw : (task.category.daysParameter == TaskDaysParameter.MULTI_WEEK) = true
      · rw [if_pos hmw] at he
        rcases List.mem_append.mp he with he | he
        · exact mem_multiWeekTasksAt he
        · exact ih he
      · rw [if_neg hmw] at he
        rcases List.mem_append.mp he with he | he
        · by_cases hm : ((getPeriodsDays (getWeekPeriods inst ws[weekNbr])).1).isEmpty = true
          · rw [if_pos hm] at he
            exact absurd he (by simp)
          · rw [if_neg hm] at he
            simp only [List.mem_singleton] at he
            rw [he]
            refine ⟨List.getElem_mem hlt, ?_⟩
            intro mt hmt
            rcases List.mem_map.mp hmt with ⟨days, _, hd⟩
            rw [← hd]
            rfl
        · exact ih he
    · rw [dif_neg hlt] at he
      exact absurd he (by simp)

theorem mem_createCallMathTasks {inst : Instance} {task : Task} {ws : List Date}
    {e : Date × List MathTask} (he : e ∈ createCallMathTasks inst task ws) :
    e.1 ∈ ws ∧ ∀ mt ∈ e.2, mt.name = task.name := by
  rcases List.mem_filterMap.mp he with ⟨w, _, hw⟩
  cases hg : ws[w]? with
  | none => rw [hg] at hw; exact absurd hw (by simp)
  | some wkStart =>
    rw [hg] at hw
    dsimp only at hw
    by_cases hm : ((getPeriodsDays (getWeekPeriods inst wkStart)).2).isEmpty = true
    · rw [if_pos hm] at hw
      exact absurd hw (by simp)
    · rw [if_neg hm] at hw
      simp only [Option.some_inj] at hw
      rw [← hw]
      refine ⟨List.getElem?_mem hg, ?_⟩
      intro mt hmt
      rcases List.mem_map.mp hmt with ⟨days, _, hd⟩
      rw [← hd]
      rfl

theorem mem_createMathTasks {inst : Instance} {task : Task} {e : Date × List MathTask}
    (he : e ∈ createMathTasks inst task) :
    e.1 ∈ weekStarts inst ∧ ∀ mt ∈ e.2, mt.name = task.name := by
  unfold createMathTasks at he
  dsimp only at he
  cases htype : task.type with
  | MAIN => rw [htype] at he; exact mem_createMainMathTasks he
  | CALL => rw [htype] at he; exact mem_createCallMathTasks he

theorem mem_taskMathTasks {inst : Instance} {task : Task} {mt : MathTask} :
    mt ∈ taskMathTasks inst task ↔ ∃ e ∈ createMathTasks inst task, mt ∈ e.2 := by
  unfold taskMathTasks
  simp only [List.mem_flatten, List.mem_map]
  constructor
  · rintro ⟨l, ⟨a, ha, hl⟩, hmt⟩
    exact ⟨a, ha, by rw [← hl] at hmt; exact hmt⟩
  · rintro ⟨a, ha, hmt⟩
    exact ⟨a.2, ⟨a, ha, rfl⟩, hmt⟩

theorem taskMathTasks_name {inst : Instance} {task : Task} {mt : MathTask}
    (hmt : mt ∈ taskMathTasks inst task) : mt.name = task.name := by
  rcases mem_taskMathTasks.mp hmt with ⟨e, he, hin⟩
  exact (mem_createMathTasks he).2 mt hin

theorem mem_mathTasksAtWeek {inst : Instance} {task : Task} {mt : MathTask}
    {e : Date × List MathTask} (he : e ∈ createMathTasks inst task) (hin : mt ∈ e.2) :
    mt ∈ mathTasksAtWeek inst task e.1 := by
  unfold mathTasksAtWeek
  rw [List.mem_flatten]
  refine ⟨e.2, ?_, hin⟩
  rw [List.mem_map]
  refine ⟨e, ?_, rfl⟩
  rw [List.mem_filter]
  exact ⟨he, by simp⟩


/-! ## Helper lemmas: the availability and eligibility constraint families -/

theorem mem_availabilityItems {inst : Instance} {t : Task} {mt : MathTask} {p : PhysName}
    (ht : t ∈ inst.tasks) (hmt : mt ∈ taskMathTasks inst t)
    (hp : p ∈ allPhysicians inst)
    (hna : isAvailableForDays inst p mt.days = false) :
    (Constr.eqZero (t.name, mt.startDate, mt.endDate, p),
      (⟨t.name, some p, "Unavailable", mt.startDate, mt.endDate⟩ : LogRec)) ∈
      availabilityItems inst := by
  rcases mem_taskMathTasks.mp hmt with ⟨e, he, hin⟩
  unfold availabilityItems
  rw [List.mem_flatMap]
  refine ⟨e.1, (mem_createMathTasks he).1, ?_⟩
  rw [List.mem_flatMap]
  refine ⟨t, ht, ?_⟩
  rw [List.mem_flatMap]
  refine ⟨mt, mem_mathTasksAtWeek he hin, ?_⟩
  rw [List.mem_filterMap]
  refine ⟨p, hp, ?_⟩
  rw [hna]
  rfl

theorem availability_eqZero_mem {inst : Instance} {t : Task} {mt : MathTask} {p : PhysName}
    (ht : t ∈ inst.tasks) (hmt : mt ∈ taskMathTasks inst t)
    (hp : p ∈ allPhysicians inst)
    (hna : isAvailableForDays inst p mt.days = false) :
    Constr.eqZero (t.name, mt.startDate, mt.endDate, p) ∈ (buildModel inst).constraints := by
  unfold buildModel
  dsimp only
  rw [List.mem_append]
  left
  rw [List.mem_append]
  left
  rw [List.mem_map]
  exact ⟨_, mem_availabilityItems ht hmt hp hna, rfl⟩

theorem mem_eligibilityItems {inst : Instance} {t : Task} {mt : MathTask} {p : PhysName}
    (ht : t ∈ inst.tasks) (hmt : mt ∈ taskMathTasks inst t)
    (hp : p ∈ allPhysicians inst)
    (hex : (getPhysicianByName inst p).exclusionTasks.contains t.category.name = true) :
    (Constr.eqZero (t.name, mt.startDate, mt.endDate, p),
      (⟨t.name, some p, "Ineligible", mt.startDate, mt.endDate⟩ : LogRec)) ∈
      eligibilityItems inst := by
  rcases mem_taskMathTasks.mp hmt with ⟨e, he, hin⟩
  unfold eligibilityItems
  rw [List.mem_flatMap]
  refine ⟨e.1, (mem_createMathTasks he).1, ?_⟩
  rw [List.mem_flatMap]
  refine ⟨t, ht, ?_⟩
  rw [List.mem_flatMap]
  refine ⟨mt, mem_mathTasksAtWeek he hin, ?_⟩
  rw [List.mem_filterMap]
  refine ⟨p, hp, ?_⟩
  rw [hex]
  rfl

theorem eligibility_eqZero_mem {inst : Instance} {t : Task} {mt : MathTask} {p : PhysName}
    (ht : t ∈ inst.tasks) (hmt : mt ∈ taskMathTasks inst t)
    (hp : p ∈ allPhysicians inst)
    (hex : (getPhysicianByName inst p).exclusionTasks.contains t.category.name = true) :
    Constr.eqZero (t.name, mt.startDate, mt.endDate, p) ∈ (buildModel inst).constraints := by
  unfold buildModel
  dsimp only
  rw [List.mem_append]
  left
  rw [List.mem_append]
  right
  rw [List.mem_map]
  exact ⟨_, mem_eligibilityItems ht hmt hp hex, rfl⟩

theorem mem_blockJobs {inst : Instance} {t : Task} {B : List MathTask} :
    (t, B) ∈ blockJobs inst ↔
      t ∈ inst.tasks ∧ B ∈ groupMathTasksIntoBlocks t (taskMathTasks inst t) := by
  unfold blockJobs
  rw [List.mem_flatMap]
  constructor
  · rintro ⟨t', ht', hmem⟩
    rcases List.mem_map.mp hmem with ⟨b, hb, hbe⟩
    have h1 : t' = t := congrArg Prod.fst hbe
    have h2 : b = B := congrArg Prod.snd hbe
    rw [h1] at ht' hb
    rw [h2] at hb
    exact ⟨ht', hb⟩
  · rintro ⟨ht, hB⟩
    exact ⟨t, ht, List.mem_map.mpr ⟨B, hB, rfl⟩⟩

theorem mem_allVars {inst : Instance} {t : Task} {mt : MathTask} {p : PhysName}
    (ht : t ∈ inst.tasks) (hmt : mt ∈ taskMathTasks inst t)
    (hp : p ∈ allPhysicians inst) : yVar mt p ∈ allVars inst := by
  unfold allVars
  rw [List.mem_flatten]
  refine ⟨_, List.mem_map.mpr ⟨t, ht, rfl⟩, ?_⟩
  rw [List.mem_flatten]
  refine ⟨_, List.mem_map.mpr ⟨mt, hmt, rfl⟩, ?_⟩
  exact List.mem_map.mpr ⟨p, hp, rfl⟩

theorem varExists_of_mem {inst : Instance} {t : Task} {mt : MathTask} {p : PhysName}
    (ht : t ∈ inst.tasks) (hmt : mt ∈ taskMathTasks inst t)
    (hp : p ∈ allPhysicians inst) : varExists inst (yVar mt p) = true := by
  unfold varExists
  rw [List.contains_iff_exists_mem_beq]
  exact ⟨yVar mt p, mem_allVars ht hmt hp, by simp⟩


/-! ## Helper lemmas: the interval map of the assignment pass -/

theorem getIntervals_cons_pos {e : PhysName × List TaskInterval}
    {m : List (PhysName × List TaskInterval)} {q : PhysName} (h : (e.1 == q) = true) :
    getIntervals (e :: m) q = e.2 := by
  unfold getIntervals
  rw [List.find?_cons, h]
  rfl

theorem getIntervals_cons_neg {e : PhysName × List TaskInterval}
    {m : List (PhysName × List TaskInterval)} {q : PhysName} (h : (e.1 == q) = false) :
    getIntervals (e :: m) q = getIntervals m q := by
  unfold getIntervals
  rw [List.find?_cons, h]

theorem getIntervals_cons_pair_pos {k : PhysName} {v : List TaskInterval}
    {m : List (PhysName × List TaskInterval)} {q : PhysName} (h : (k == q) = true) :
    getIntervals ((k, v) :: m) q = v := by
  unfold getIntervals
  rw [List.find?_cons, h]
  rfl

theorem getIntervals_cons_pair_neg {k : PhysName} {v : List TaskInterval}
    {m : List (PhysName × List TaskInterval)} {q : PhysName} (h : (k == q) = false) :
    getIntervals ((k, v) :: m) q = getIntervals m q := by
  unfold getIntervals
  rw [List.find?_cons, h]

theorem getIntervals_setIntervals_ne {m : List (PhysName × List TaskInterval)}
    {p q : PhysName} {ivs : List TaskInterval} (h : (q == p) = false) :
    getIntervals (setIntervals m p ivs) q = getIntervals m q := by
  induction m with
  | nil => rfl
  | cons e es ih =>
    show getIntervals ((if e.1 == p then (e.1, ivs) else e) :: setIntervals es p ivs) q = _
    by_cases hq : (e.1 == q) = true
    · by_cases hp : (e.1 == p) = true
      · have h1 : q = p := by
          rw [← eq_of_beq hq]
          exact eq_of_beq hp
        rw [h1] at h
        simp at h
      · rw [if_neg hp, getIntervals_cons_pos hq, getIntervals_cons_pos hq]
    · have hq' : (e.1 == q) = false := by simpa using hq
      by_cases hp : (e.1 == p) = true
      · rw [if_pos hp, getIntervals_cons_pair_neg hq', getIntervals_cons_neg hq']
        exact ih
      · rw [if_neg hp, getIntervals_cons_neg hq', getIntervals_cons_neg hq']
        exact ih

theorem getIntervals_setIntervals_self {m : List (PhysName × List TaskInterval)}
    {p : PhysName} {ivs : List TaskInterval} :
    getIntervals (setIntervals m p ivs) p =
      if (m.find? (fun e => e.1 == p)).isSome then ivs else [] := by
  induction m with
  | nil => rfl
  | cons e es ih =>
    show getIntervals ((if e.1 == p then (e.1, ivs) else e) :: setIntervals es p ivs) p = _
    by_cases hp : (e.1 == p) = true
    · rw [if_pos hp, getIntervals_cons_pair_pos hp, List.find?_cons, hp]
      rfl
    · have hp' : (e.1 == p) = false := by simpa using hp
      rw [if_neg hp, getIntervals_cons_neg hp', List.find?_cons, hp']
      exact ih

theorem getIntervals_eq_nil_of_find?_none {m : List (PhysName × List TaskInterval)}
    {p : PhysName} (h : (m.find? (fun e => e.1 == p)).isSome = false) :
    getIntervals m p = [] := by
  unfold getIntervals
  cases hf : m.find? (fun e => e.1 == p) with
  | none => rfl
  | some e => rw [hf] at h; simp at h


theorem keysOf_setIntervals {m : List (PhysName × List TaskInterval)}
    {p : PhysName} {ivs : List TaskInterval} :
    keysOf (setIntervals m p ivs) = keysOf m := by
  induction m with
  | nil => rfl
  | cons e es ih =>
    show ((if e.1 == p then (e.1, ivs) else e) :: setIntervals es p ivs).map _ = _
    by_cases hp : (e.1 == p) = true
    · rw [if_pos hp]
      show e.1 :: keysOf (setIntervals es p ivs) = e.1 :: keysOf es
      rw [ih]
    · rw [if_neg hp]
      show e.1 :: keysOf (setIntervals es p ivs) = e.1 :: keysOf es
      rw [ih]

theorem find?_isSome_of_mem_keysOf {m : List (PhysName × List TaskInterval)}
    {p : PhysName} (h : p ∈ keysOf m) :
    (m.find? (fun e => e.1 == p)).isSome = true := by
  induction m with
  | nil => simp [keysOf] at h
  | cons e es ih =>
    rw [List.find?_cons]
    by_cases hp : (e.1 == p) = true
    · rw [hp]
      rfl
    · have hp' : (e.1 == p) = false := by simpa using hp
      rw [hp']
      rcases List.mem_cons.mp h with h1 | h1
      · rw [h1] at hp
        simp at hp
      · exact ih h1

theorem keysOf_initIntervals {inst : Instance} :
    keysOf (initIntervals inst) = allPhysicians inst := by
  unfold keysOf initIntervals
  rw [List.map_map]
  exact List.map_id _

/-! ## Helper lemmas: `_prevent_overlapping_assignments` -/

theorem preventOverlappingAux_snd (inst : Instance) (p : PhysName) (yv : Var)
    (bi : TaskInterval) :
    ∀ (block : List MathTask) (ivs : List TaskInterval),
      (preventOverlappingAux inst p yv bi block ivs).2 =
        ivs ++ List.replicate block.length bi := by
  intro block
  induction block with
  | nil => intro ivs; simp [preventOverlappingAux]
  | cons mt rest ih =>
    intro ivs
    show (preventOverlappingAux inst p yv bi rest (ivs ++ [bi])).2 = _
    rw [ih]
    simp [List.replicate_succ]

theorem preventOverlappingAux_fst_mem {inst : Instance} {p : PhysName} {yv : Var}
    {bi other : TaskInterval} {mt : MathTask}
    (hov : intervalsOverlap (mt.startDate, mt.endDate) (other.1, other.2.1) = true)
    (hvar : varExists inst (other.2.2, other.1, other.2.1, p) = true) :
    ∀ {block : List MathTask} {ivs : List TaskInterval}, mt ∈ block → other ∈ ivs →
      Constr.pairLeOne yv (other.2.2, other.1, other.2.1, p) ∈
        (preventOverlappingAux inst p yv bi block ivs).1 := by
  intro block
  induction block with
  | nil => intro ivs h; simp at h
  | cons x rest ih =>
    intro ivs hmt hother
    show _ ∈ (ivs.filterMap _) ++ (preventOverlappingAux inst p yv bi rest (ivs ++ [bi])).1
    rw [List.mem_append]
    rcases List.mem_cons.mp hmt with h | h
    · left
      subst h
      rw [List.mem_filterMap]
      refine ⟨other, hother, ?_⟩
      rw [if_pos hov]
      dsimp only
      rw [if_pos hvar]
    · right
      exact ih h (List.mem_append_left _ hother)


/-! ## Helper lemmas: monotonicity of the assignment pass -/

theorem processPhysician_constraints_mono {inst : Instance} {t : Task}
    {linked : Option String} {B : List MathTask} {acc : Accum} {p : PhysName} {c : Constr}
    (hc : c ∈ acc.constraints) :
    c ∈ (processPhysician inst t linked B acc p).constraints := by
  unfold processPhysician
  dsimp only
  rw [List.mem_append, List.mem_append, List.mem_append]
  exact Or.inl (Or.inl (Or.inl hc))

theorem processPhysician_logs {inst : Instance} {t : Task}
    {linked : Option String} {B : List MathTask} {acc : Accum} {p : PhysName} :
    (processPhysician inst t linked B acc p).logs = acc.logs := rfl

theorem processPhysician_keysOf {inst : Instance} {t : Task}
    {linked : Option String} {B : List MathTask} {acc : Accum} {p : PhysName} :
    keysOf (processPhysician inst t linked B acc p).intervals = keysOf acc.intervals := by
  unfold processPhysician
  dsimp only
  exact keysOf_setIntervals

theorem processPhysician_intervals_mono {inst : Instance} {t : Task}
    {linked : Option String} {B : List MathTask} {acc : Accum} {p q : PhysName}
    {iv : TaskInterval} (hiv : iv ∈ getIntervals acc.intervals q) :
    iv ∈ getIntervals (processPhysician inst t linked B acc p).intervals q := by
  unfold processPhysician
  dsimp only
  by_cases hq : (q == p) = true
  · have hqp : q = p := eq_of_beq hq
    subst hqp
    rw [getIntervals_setIntervals_self]
    by_cases hs : (acc.intervals.find? (fun e => e.1 == q)).isSome = true
    · rw [if_pos hs, List.mem_append]
      left
      rw [preventOverlappingAux_snd]
      exact List.mem_append_left _ hiv
    · have hs' : (acc.intervals.find? (fun e => e.1 == q)).isSome = false :=
        (Bool.not_eq_true _) ▸ hs
      rw [getIntervals_eq_nil_of_find?_none hs'] at hiv
      simp at hiv
  · have hq' : (q == p) = false := by simpa using hq
    rw [getIntervals_setIntervals_ne hq']
    exact hiv


/-- Generic fold fact: a monotone projection keeps its members along a fold. -/
theorem foldl_proj_mono {α β : Type _} (step : Accum → α → Accum) (f : Accum → List β)
    (hstep : ∀ a x (c : β), c ∈ f a → c ∈ f (step a x)) :
    ∀ (l : List α) (a : Accum) (c : β), c ∈ f a → c ∈ f (l.foldl step a) := by
  intro l
  induction l with
  | nil => intro a c hc; exact hc
  | cons y ys ih => intro a c hc; exact ih _ _ (hstep _ _ _ hc)

/-- Generic fold fact: an element contributed by the step of some member of
the fold survives to the end, given an invariant `Q` that makes the step
contribute it and a monotone projection. -/
theorem foldl_proj_mem {α β : Type _} (step : Accum → α → Accum) (f : Accum → List β)
    (Q : Accum → Prop) (hQ : ∀ a x, Q a → Q (step a x))
    (hmono : ∀ a x (c : β), c ∈ f a → c ∈ f (step a x))
    (x : α) (c : β) (hC : ∀ a, Q a → c ∈ f (step a x)) :
    ∀ (l : List α), x ∈ l → ∀ (a : Accum), Q a → c ∈ f (l.foldl step a) := by
  intro l
  induction l with
  | nil => intro hx; simp at hx
  | cons y ys ih =>
    intro hx a hQa
    rcases List.mem_cons.mp hx with h | h
    · subst h
      exact foldl_proj_mono step f hmono ys _ _ (hC a hQa)
    · exact ih h _ (hQ a y hQa)

theorem isEmpty_false_of_ne_nil {α : Type _} {l : List α} (h : l ≠ []) :
    l.isEmpty = false := by
  cases l with
  | nil => exact absurd rfl h
  | cons a l => rfl

theorem processBlock_constraints_mono {inst : Instance} {t : Task}
    {linked : Option String} {acc : Accum} {B : List MathTask} {c : Constr}
    (hc : c ∈ acc.constraints) :
    c ∈ (processBlock inst t linked acc B).constraints := by
  unfold processBlock
  dsimp only
  by_cases he : (getEligiblePhysiciansForBlock inst B t).isEmpty = true
  · rw [if_pos he]
    by_cases hm : t.mandatory = true
    · rw [if_pos hm]; exact hc
    · rw [if_neg hm]; exact hc
  · rw [if_neg he]
    exact foldl_proj_mono _ (fun a => a.constraints)
      (fun a x c hcx => processPhysician_constraints_mono hcx) _ _ _
      (List.mem_append_left _ hc)

theorem processBlock_logs_mono {inst : Instance} {t : Task}
    {linked : Option String} {acc : Accum} {B : List MathTask} {r : LogRec}
    (hr : r ∈ acc.logs) :
    r ∈ (processBlock inst t linked acc B).logs := by
  unfold processBlock
  dsimp only
  by_cases he : (getEligiblePhysiciansForBlock inst B t).isEmpty = true
  · rw [if_pos he]
    by_cases hm : t.mandatory = true
    · rw [if_pos hm]
      exact List.mem_append_left _ hr
    · rw [if_neg hm]; exact hr
  · rw [if_neg he]
    refine foldl_proj_mono _ (fun a => a.logs) ?_ _ _ _ hr
    intro a x c hcx
    show c ∈ (processPhysician inst t linked B a x).logs
    rw [processPhysician_logs]
    exact hcx

theorem processBlock_intervals_mono {inst : Instance} {t : Task}
    {linked : Option String} {acc : Accum} {B : List MathTask} {q : PhysName}
    {iv : TaskInterval} (hiv : iv ∈ getIntervals acc.intervals q) :
    iv ∈ getIntervals (processBlock inst t linked acc B).intervals q := by
  unfold processBlock
  dsimp only
  by_cases he : (getEligiblePhysiciansForBlock inst B t).isEmpty = true
  · rw [if_pos he]
    by_cases hm : t.mandatory = true
    · rw [if_pos hm]; exact hiv
    · rw [if_neg hm]; exact hiv
  · rw [if_neg he]
    exact foldl_proj_mono _ (fun a => getIntervals a.intervals q)
      (fun a x c hcx => processPhysician_intervals_mono hcx) _ _ _ hiv

theorem foldl_keysOf {α : Type _} (step : Accum → α → Accum)
    (hstep : ∀ a x, keysOf (step a x).intervals = keysOf a.intervals) :
    ∀ (l : List α) (a : Accum), keysOf ((l.foldl step a).intervals) = keysOf a.intervals := by
  intro l
  induction l with
  | nil => intro a; rfl
  | cons y ys ih =>
    intro a
    show keysOf ((ys.foldl step (step a y)).intervals) = _
    rw [ih, hstep]

theorem processBlock_keysOf {inst : Instance} {t : Task}
    {linked : Option String} {acc : Accum} {B : List MathTask} :
    keysOf (processBlock inst t linked acc B).intervals = keysOf acc.intervals := by
  unfold processBlock
  dsimp only
  by_cases he : (getEligiblePhysiciansForBlock inst B t).isEmpty = true
  · rw [if_pos he]
    by_cases hm : t.mandatory = true
    · rw [if_pos hm]
    · rw [if_neg hm]
  · rw [if_neg he]
    exact foldl_keysOf _ (fun a x => processPhysician_keysOf) _ _

theorem processBlock_cover_mem_mandatory {inst : Instance} {t : Task}
    {linked : Option String} {acc : Accum} {B : List MathTask}
    (hmand : t.mandatory = true)
    (helig : getEligiblePhysiciansForBlock inst B t ≠ []) :
    Constr.sumEqOne ((getEligiblePhysiciansForBlock inst B t).map (fun p =>
        (B.map (fun mt => ((t.name, mt.startDate, mt.endDate, p) : Var))).headD dummyVar)) ∈
      (processBlock inst t linked acc B).constraints := by
  unfold processBlock
  dsimp only
  rw [if_neg (by rw [isEmpty_false_of_ne_nil helig]; exact Bool.false_ne_true)]
  rw [if_pos hmand]
  refine foldl_proj_mono _ (fun a => a.constraints)
    (fun a x c hcx => processPhysician_constraints_mono hcx) _ _ _ ?_
  exact List.mem_append_right _ (List.mem_singleton.mpr rfl)

theorem processBlock_physician_mem {inst : Instance} {t : Task}
    {linked : Option String} {acc : Accum} {B : List MathTask} {p : PhysName} {c : Constr}
    (hp : p ∈ getEligiblePhysiciansForBlock inst B t)
    (Q : Accum → Prop) (hQ : ∀ a q, Q a → Q (processPhysician inst t linked B a q))
    (hQstart : ∀ a cs, Q a → Q { a with constraints := cs })
    (hQ0 : Q acc)
    (hC : ∀ a, Q a → c ∈ (processPhysician inst t linked B a p).constraints) :
    c ∈ (processBlock inst t linked acc B).constraints := by
  unfold processBlock
  dsimp only
  have hne : getEligiblePhysiciansForBlock inst B t ≠ [] := by
    intro hnil
    rw [hnil] at hp
    simp at hp
  rw [if_neg (by rw [isEmpty_false_of_ne_nil hne]; exact Bool.false_ne_true)]
  exact foldl_proj_mem _ (fun a => a.constraints) Q hQ
    (fun a x c hcx => processPhysician_constraints_mono hcx) p c hC _ hp _
    (hQstart acc _ hQ0)

theorem processBlock_records_interval {inst : Instance} {t : Task}
    {linked : Option String} {acc : Accum} {B : List MathTask} {p : PhysName}
    (hp : p ∈ getEligiblePhysiciansForBlock inst B t)
    (hkey : p ∈ keysOf acc.intervals) :
    ((B.headD dummyMathTask).startDate, (B.getLastD dummyMathTask).endDate, t.name) ∈
      getIntervals (processBlock inst t linked acc B).intervals p := by
  unfold processBlock
  dsimp only
  have hne : getEligiblePhysiciansForBlock inst B t ≠ [] := by
    intro hnil
    rw [hnil] at hp
    simp at hp
  rw [if_neg (by rw [isEmpty_false_of_ne_nil hne]; exact Bool.false_ne_true)]
  refine foldl_proj_mem _ (fun a => getIntervals a.intervals p)
    (fun a => p ∈ keysOf a.intervals) ?_
    (fun a x c hcx => processPhysician_intervals_mono hcx) p _ ?_ _ hp _ hkey
  · intro a q hQa
    rw [processPhysician_keysOf]
    exact hQa
  · intro a hQa
    unfold processPhysician
    dsimp only
    rw [getIntervals_setIntervals_self, if_pos (find?_isSome_of_mem_keysOf hQa)]
    exact List.mem_append_right _ (List.mem_singleton.mpr rfl)


/-! ## Helper lemmas: contributions of one eligible physician -/

theorem processPhysician_chain_mem {inst : Instance} {t : Task}
    {linked : Option String} {B : List MathTask} {p : PhysName} {c : Constr}
    (hc : c ∈ samePhysicianChain
      (B.map (fun mt => ((t.name, mt.startDate, mt.endDate, p) : Var)))) :
    ∀ acc : Accum, c ∈ (processPhysician inst t linked B acc p).constraints := by
  intro acc
  unfold processPhysician
  dsimp only
  rw [List.mem_append, List.mem_append, List.mem_append]
  exact Or.inl (Or.inl (Or.inr hc))

theorem processPhysician_link_mem {inst : Instance} {t : Task}
    {B : List MathTask} {p : PhysName} {c : Constr} {cn : String}
    (hc : c ∈ handleLinkedCallTasks inst p t B cn
      (B.map (fun mt => ((t.name, mt.startDate, mt.endDate, p) : Var)))) :
    ∀ acc : Accum, c ∈ (processPhysician inst t (some cn) B acc p).constraints := by
  intro acc
  unfold processPhysician
  dsimp only
  rw [List.mem_append]
  exact Or.inr hc

theorem processPhysician_prevent_mem {inst : Instance} {t : Task}
    {linked : Option String} {B : List MathTask} {p : PhysName}
    {other : TaskInterval} {mt : MathTask} {acc : Accum}
    (hother : other ∈ getIntervals acc.intervals p) (hmt : mt ∈ B)
    (hov : intervalsOverlap (mt.startDate, mt.endDate) (other.1, other.2.1) = true)
    (hvar : varExists inst (other.2.2, other.1, other.2.1, p) = true) :
    Constr.pairLeOne
        ((B.map (fun mt => ((t.name, mt.startDate, mt.endDate, p) : Var))).headD dummyVar)
        (other.2.2, other.1, other.2.1, p) ∈
      (processPhysician inst t linked B acc p).constraints := by
  unfold processPhysician
  dsimp only
  rw [List.mem_append, List.mem_append, List.mem_append]
  exact Or.inl (Or.inr (preventOverlappingAux_fst_mem hov hvar hmt hother))

/-! ## Helper lemmas: the whole assignment pass as a fold over its jobs -/

theorem assignmentConstraints_eq (inst : Instance) :
    assignmentConstraints inst =
      (blockJobs inst).foldl (jobStep inst) ⟨[], [], initIntervals inst⟩ := by
  unfold assignmentConstraints blockJobs
  generalize (⟨[], [], initIntervals inst⟩ : Accum) = a
  induction inst.tasks generalizing a with
  | nil => rfl
  | cons t ts ih =>
    show (ts.foldl _ ((groupMathTasksIntoBlocks t (taskMathTasks inst t)).foldl
      (processBlock inst t (getLinkedCall inst t)) a)) = _
    rw [ih]
    show _ = List.foldl (jobStep inst) a
      ((groupMathTasksIntoBlocks t (taskMathTasks inst t)).map (fun b => (t, b)) ++
        ts.flatMap _)
    rw [List.foldl_append, List.foldl_map]
    rfl

theorem jobStep_constraints_mono {inst : Instance} {acc : Accum}
    {job : Task × List MathTask} {c : Constr} (hc : c ∈ acc.constraints) :
    c ∈ (jobStep inst acc job).constraints :=
  processBlock_constraints_mono hc

theorem jobStep_logs_mono {inst : Instance} {acc : Accum}
    {job : Task × List MathTask} {r : LogRec} (hr : r ∈ acc.logs) :
    r ∈ (jobStep inst acc job).logs :=
  processBlock_logs_mono hr

theorem jobStep_intervals_mono {inst : Instance} {acc : Accum}
    {job : Task × List MathTask} {q : PhysName} {iv : TaskInterval}
    (hiv : iv ∈ getIntervals acc.intervals q) :
    iv ∈ getIntervals (jobStep inst acc job).intervals q :=
  processBlock_intervals_mono hiv

theorem jobStep_keysOf {inst : Instance} {acc : Accum} {job : Task × List MathTask} :
    keysOf (jobStep inst acc job).intervals = keysOf acc.intervals :=
  processBlock_keysOf

/-- Constraints of the assignment pass are constraints of the built model. -/
theorem assignment_constraint_sub {inst : Instance} {c : Constr}
    (hc : c ∈ (assignmentConstraints inst).constraints) :
    c ∈ (buildModel inst).constraints := by
  unfold buildModel
  dsimp only
  rw [List.mem_append]
  exact Or.inr hc

/-- Log records of the assignment pass are log records of the built model. -/
theorem assignment_log_sub {inst : Instance} {r : LogRec}
    (hr : r ∈ (assignmentConstraints inst).logs) :
    r ∈ (buildModel inst).logs := by
  unfold buildModel
  dsimp only
  rw [List.mem_append]
  exact Or.inr hr

/-- A constraint contributed by one job of the assignment pass (under a step
invariant `Q` over the accumulator) belongs to the built model. -/
theorem blockJobs_constraint_mem {inst : Instance} {t : Task} {B : List MathTask}
    {c : Constr} (hjob : (t, B) ∈ blockJobs inst)
    (Q : Accum → Prop) (hQ : ∀ a j, Q a → Q (jobStep inst a j))
    (hQ0 : Q ⟨[], [], initIntervals inst⟩)
    (hC : ∀ a, Q a → c ∈ (jobStep inst a (t, B)).constraints) :
    c ∈ (buildModel inst).constraints := by
  apply assignment_constraint_sub
  rw [assignmentConstraints_eq]
  exact foldl_proj_mem (jobStep inst) (fun a => a.constraints) Q hQ
    (fun a x c hcx => jobStep_constraints_mono hcx) (t, B) c hC _ hjob _ hQ0

/-- A log record contributed by one job of the assignment pass belongs to the
built model. -/
theorem blockJobs_log_mem {inst : Instance} {t : Task} {B : List MathTask}
    {r : LogRec} (hjob : (t, B) ∈ blockJobs inst)
    (hC : ∀ a : Accum, r ∈ (jobStep inst a (t, B)).logs) :
    r ∈ (buildModel inst).logs := by
  apply assignment_log_sub
  rw [assignmentConstraints_eq]
  exact foldl_proj_mem (jobStep inst) (fun a => a.logs) (fun _ => True)
    (fun _ _ _ => trivial)
    (fun a x c hcx => jobStep_logs_mono hcx) (t, B) r (fun a _ => hC a) _ hjob _ trivial


/-! ## Helper lemmas: shapes of the emitted constraints -/


theorem availabilityItems_shape {inst : Instance} {it : Constr × LogRec}
    (h : it ∈ availabilityItems inst) : ∃ v, it.1 = Constr.eqZero v := by
  unfold availabilityItems at h
  rcases List.mem_flatMap.mp h with ⟨ws, _, h⟩
  rcases List.mem_flatMap.mp h with ⟨t, _, h⟩
  rcases List.mem_flatMap.mp h with ⟨mt, _, h⟩
  rcases List.mem_filterMap.mp h with ⟨p, _, hp⟩
  by_cases hav : isAvailableForDays inst p mt.days = true
  · rw [if_pos hav] at hp
    exact absurd hp (by simp)
  · rw [if_neg hav] at hp
    simp only [Option.some_inj] at hp
    exact ⟨_, by rw [← hp]⟩

theorem eligibilityItems_shape {inst : Instance} {it : Constr × LogRec}
    (h : it ∈ eligibilityItems inst) : ∃ v, it.1 = Constr.eqZero v := by
  unfold eligibilityItems at h
  rcases List.mem_flatMap.mp h with ⟨ws, _, h⟩
  rcases List.mem_flatMap.mp h with ⟨t, _, h⟩
  rcases List.mem_flatMap.mp h with ⟨mt, _, h⟩
  rcases List.mem_filterMap.mp h with ⟨p, _, hp⟩
  by_cases hex : (getPhysicianByName inst p).exclusionTasks.contains t.category.name = true
  · rw [if_pos hex] at hp
    simp only [Option.some_inj] at hp
    exact ⟨_, by rw [← hp]⟩
  · rw [if_neg hex] at hp
    exact absurd hp (by simp)

theorem samePhysicianChain_shape :
    ∀ {vs : List Var} {c : Constr}, c ∈ samePhysicianChain vs → ∃ v w, c = Constr.eqVars v w := by
  intro vs
  induction vs with
  | nil => intro c h; simp [samePhysicianChain] at h
  | cons a rest ih =>
    cases rest with
    | nil => intro c h; simp [samePhysicianChain] at h
    | cons b rest2 =>
      intro c h
      rcases List.mem_cons.mp h with h | h
      · exact ⟨a, b, h⟩
      · exact ih h

theorem preventOverlappingAux_shape {inst : Instance} {p : PhysName} {yv : Var}
    {bi : TaskInterval} :
    ∀ {block : List MathTask} {ivs : List TaskInterval} {c : Constr},
      c ∈ (preventOverlappingAux inst p yv bi block ivs).1 → ∃ v w, c = Constr.pairLeOne v w := by
  intro block
  induction block with
  | nil => intro ivs c h; simp [preventOverlappingAux] at h
  | cons x rest ih =>
    intro ivs c h
    rcases List.mem_append.mp h with h | h
    · rcases List.mem_filterMap.mp h with ⟨other, _, hother⟩
      by_cases hov : intervalsOverlap (x.startDate, x.endDate) (other.1, other.2.1) = true
      · rw [if_pos hov] at hother
        dsimp only at hother
        by_cases hv : varExists inst (other.2.2, other.1, other.2.1, p) = true
        · rw [if_pos hv] at hother
          simp only [Option.some_inj] at hother
          exact ⟨_, _, hother.symm⟩
        · rw [if_neg hv] at hother
          exact absurd hother (by simp)
      · rw [if_neg hov] at hother
        exact absurd hother (by simp)
    · exact ih h

theorem handleLinkedCallTasks_shape {inst : Instance} {p : PhysName} {task : Task}
    {block : List MathTask} {callName : String} {vars : List Var} {c : Constr}
    (h : c ∈ handleLinkedCallTasks inst p task block callName vars) :
    ∃ v w, c = Constr.eqVars v w := by
  unfold handleLinkedCallTasks at h
  rcases List.mem_flatMap.mp h with ⟨cmt, _, h⟩
  rcases List.mem_map.mp h with ⟨mv, _, hc⟩
  exact ⟨_, _, hc.symm⟩

theorem processPhysician_shape {inst : Instance} {t : Task} {linked : Option String}
    {B : List MathTask} {acc : Accum} {p : PhysName}
    (hgood : ∀ c ∈ acc.constraints, emittedShape c) :
    ∀ c ∈ (processPhysician inst t linked B acc p).constraints, emittedShape c := by
  intro c hc
  unfold processPhysician at hc
  dsimp only at hc
  rw [List.mem_append, List.mem_append, List.mem_append] at hc
  rcases hc with ((hc | hc) | hc) | hc
  · exact hgood c hc
  · rcases samePhysicianChain_shape hc with ⟨v, w, hvw⟩
    rw [hvw]
    exact ⟨rfl, rfl⟩
  · rcases preventOverlappingAux_shape hc with ⟨v, w, hvw⟩
    rw [hvw]
    exact ⟨rfl, rfl⟩
  · cases linked with
    | none => simp at hc
    | some cn =>
      rcases handleLinkedCallTasks_shape hc with ⟨v, w, hvw⟩
      rw [hvw]
      exact ⟨rfl, rfl⟩

theorem foldl_shape {α : Type _} (step : Accum → α → Accum)
    (hstep : ∀ a x, (∀ c ∈ a.constraints, emittedShape c) →
      ∀ c ∈ (step a x).constraints, emittedShape c) :
    ∀ (l : List α) (a : Accum), (∀ c ∈ a.constraints, emittedShape c) →
      ∀ c ∈ (l.foldl step a).constraints, emittedShape c := by
  intro l
  induction l with
  | nil => intro a h; exact h
  | cons y ys ih => intro a h; exact ih _ (hstep a y h)

theorem processBlock_shape {inst : Instance} {t : Task} {linked : Option String}
    {acc : Accum} {B : List MathTask}
    (hgood : ∀ c ∈ acc.constraints, emittedShape c) :
    ∀ c ∈ (processBlock inst t linked acc B).constraints, emittedShape c := by
  unfold processBlock
  dsimp only
  by_cases he : (getEligiblePhysiciansForBlock inst B t).isEmpty = true
  · rw [if_pos he]
    by_cases hm : t.mandatory = true
    · rw [if_pos hm]; exact hgood
    · rw [if_neg hm]; exact hgood
  · rw [if_neg he]
    refine foldl_shape _ (fun a x h => processPhysician_shape h) _ _ ?_
    intro c hc
    rcases List.mem_append.mp hc with hc | hc
    · exact hgood c hc
    · rw [List.mem_singleton.mp hc]
      by_cases hm : t.mandatory = true
      · rw [if_pos hm]; exact ⟨rfl, rfl⟩
      · rw [if_neg hm]; exact ⟨rfl, rfl⟩

/-- No constraint the code emits is a slack coverage constraint or a linkage
inequality. -/
theorem buildModel_shape {inst : Instance} :
    ∀ c ∈ (buildModel inst).constraints, emittedShape c := by
  intro c hc
  unfold buildModel at hc
  dsimp only at hc
  rw [List.mem_append, List.mem_append] at hc
  rcases hc with (hc | hc) | hc
  · rcases List.mem_map.mp hc with ⟨it, hit, hite⟩
    rcases availabilityItems_shape hit with ⟨v, hv⟩
    rw [← hite, hv]
    exact ⟨rfl, rfl⟩
  · rcases List.mem_map.mp hc with ⟨it, hit, hite⟩
    rcases eligibilityItems_shape hit with ⟨v, hv⟩
    rw [← hite, hv]
    exact ⟨rfl, rfl⟩
  · rw [assignmentConstraints_eq] at hc
    refine foldl_shape (jobStep inst) ?_ _ _ ?_ c hc
    · intro a x h
      exact processBlock_shape h
    · intro c hc
      simp at hc


/-- Claim C5 (corrected): for a mandatory block with an empty eligible set no
slack variable and no slack-augmented coverage constraint is created — the
source logs a warning, appends a `NoEligiblePhysicians` record to
`constraints_info` (which `generate_schedule` saves to
`constraints_info.json`), and skips the block entirely; no constraint of the
model is of the slack shape the spec prescribes. -/
theorem claim_C5_skip_no_slack (inst : Instance) (t : Task) (B : List MathTask)
    (hjob : (t, B) ∈ blockJobs inst)
    (helig : getEligiblePhysiciansForBlock inst B t = [])
    (hmand : t.mandatory = true) :
    (⟨t.name, none, "NoEligiblePhysicians",
      (B.headD dummyMathTask).startDate, (B.getLastD dummyMathTask).endDate⟩ : LogRec) ∈
      (buildModel inst).logs ∧
    ∀ c ∈ (buildModel inst).constraints, isSlackConstraint c = false := by
  constructor
  · refine blockJobs_log_mem hjob ?_
    intro a
    show _ ∈ (processBlock inst t (getLinkedCall inst t) a B).logs
    unfold processBlock
    dsimp only
    rw [helig]
    rw [if_pos (show ([] : List PhysName).isEmpty = true from rfl), if_pos hmand]
    exact List.mem_append_right _ (List.mem_singleton.mpr rfl)
  · intro c hc
    exact (buildModel_shape c hc).1

/-- Witness for the corrected C5 at a concrete input. -/
theorem claim_C5_skip_no_slack_witness :
    ((tOne, [mtOne]) ∈ blockJobs inst5 ∧
      getEligiblePhysiciansForBlock inst5 [mtOne] tOne = [] ∧ tOne.mandatory = true) ∧
    ((⟨"ER_M", none, "NoEligiblePhysicians", 0, 4⟩ : LogRec) ∈ (buildModel inst5).logs ∧
      ∀ c ∈ (buildModel inst5).constraints, isSlackConstraint c = false) :=
  ⟨⟨by decide, by decide, rfl⟩,
   claim_C5_skip_no_slack inst5 tOne [mtOne] (by decide) (by decide) rfl⟩


/-! ## Helper lemmas: semantics of the coverage and coherence constraints -/

/-- A sum-equals-one constraint over mapped variables pins down exactly one
carrier element. -/
theorem countP_map_eq_one {α : Type _} {sol : Var → Bool} {f : α → Var} :
    ∀ {l : List α}, (l.map f).countP sol = 1 →
      ∃ x ∈ l, sol (f x) = true ∧ ∀ y ∈ l, sol (f y) = true → y = x := by
  intro l
  induction l with
  | nil => intro h; simp at h
  | cons a l ih =>
    intro h
    rw [List.map_cons, List.countP_cons] at h
    by_cases ha : sol (f a) = true
    · rw [if_pos ha] at h
      have h0 : (l.map f).countP sol = 0 := by omega
      have hall := List.countP_eq_zero.mp h0
      refine ⟨a, List.mem_cons_self a l, ha, ?_⟩
      intro y hy hyt
      rcases List.mem_cons.mp hy with hy | hy
      · exact hy
      · exact absurd hyt (hall (f y) (List.mem_map.mpr ⟨y, hy, rfl⟩))
    · rw [if_neg ha] at h
      simp only [Nat.add_zero] at h
      rcases ih h with ⟨x, hx, hxt, huniq⟩
      refine ⟨x, List.mem_cons_of_mem a hx, hxt, ?_⟩
      intro y hy hyt
      rcases List.mem_cons.mp hy with hy | hy
      · rw [hy] at hyt
        exact absurd hyt ha
      · exact huniq y hy hyt

/-- A satisfied chain of equality constraints makes all its variables take
the value of the first one. -/
theorem chain_sat_eq {sol : Var → Bool} :
    ∀ {vs : List Var}, (∀ c ∈ samePhysicianChain vs, Constr.sat sol c = true) →
      ∀ v ∈ vs, sol v = sol (vs.headD dummyVar) := by
  intro vs
  induction vs with
  | nil => intro _ v hv; simp at hv
  | cons a rest ih =>
    intro hsat v hv
    cases rest with
    | nil =>
      rcases List.mem_cons.mp hv with hv | hv
      · rw [hv]; rfl
      · simp at hv
    | cons b rest2 =>
      have hab : sol a = sol b := by
        have := hsat (Constr.eqVars a b) (List.mem_cons_self _ _)
        unfold Constr.sat at this
        exact eq_of_beq this
      have htail : ∀ c ∈ samePhysicianChain (b :: rest2), Constr.sat sol c = true := by
        intro c hc
        exact hsat c (List.mem_cons_of_mem _ hc)
      rcases List.mem_cons.mp hv with hv | hv
      · rw [hv]; rfl
      · show sol v = sol a
        rw [hab]
        exact ih htail v hv

/-! ## Claim C1: mandatory coverage -/

/-- Claim C1 (confirmed): for every mandatory assignment block `b` (a single
ScheduledBlock, or the whole multi-week group for a multi-week task) whose
eligible set `E(b)` is non-empty, the model contains
`Σ_{p ∈ E(b)} y[b, p] = 1` (over the first-week variable of each eligible
physician), and consequently every solution satisfying the model assigns
exactly one physician to all of `b`.  The `Nodup` hypothesis mirrors the
uniqueness of the keys of the Python dict comprehension `vars_per_physician`
(physician names are unique per spec §3). -/
theorem claim_C1_mandatory_coverage (inst : Instance) (t : Task) (B : List MathTask)
    (hjob : (t, B) ∈ blockJobs inst)
    (hmand : t.mandatory = true)
    (helig : getEligiblePhysiciansForBlock inst B t ≠ [])
    (hnodup : (allPhysicians inst).Nodup) :
    Constr.sumEqOne ((getEligiblePhysiciansForBlock inst B t).map (fun p =>
        ((t.name, (B.headD dummyMathTask).startDate,
          (B.headD dummyMathTask).endDate, p) : Var))) ∈ (buildModel inst).constraints ∧
    ∀ sol : Var → Bool, SatAll sol (buildModel inst).constraints →
      ∃! p : PhysName, p ∈ allPhysicians inst ∧
        ∀ mt ∈ B, sol (t.name, mt.startDate, mt.endDate, p) = true := by
  obtain ⟨ht, hB⟩ := mem_blockJobs.mp hjob
  have hBne : B ≠ [] := groupBlocks_ne_nil hB
  have hsub : ∀ mt ∈ B, mt ∈ taskMathTasks inst t := groupBlocks_subset hB
  have hheadD : ∀ p : PhysName,
      (B.map (fun mt => ((t.name, mt.startDate, mt.endDate, p) : Var))).headD dummyVar =
        ((t.name, (B.headD dummyMathTask).startDate,
          (B.headD dummyMathTask).endDate, p) : Var) := by
    intro p
    cases B with
    | nil => exact absurd rfl hBne
    | cons b bs => rfl
  have hhead_mem : B.headD dummyMathTask ∈ B := by
    cases B with
    | nil => exact absurd rfl hBne
    | cons b bs => exact List.mem_cons_self b bs
  have hcover : Constr.sumEqOne ((getEligiblePhysiciansForBlock inst B t).map (fun p =>
      ((t.name, (B.headD dummyMathTask).startDate,
        (B.headD dummyMathTask).endDate, p) : Var))) ∈ (buildModel inst).constraints := by
    have hmem := blockJobs_constraint_mem hjob (fun _ => True) (fun _ _ _ => trivial) trivial
      (fun a _ => processBlock_cover_mem_mandatory hmand helig)
    have heq : (getEligiblePhysiciansForBlock inst B t).map (fun p =>
        (B.map (fun mt => ((t.name, mt.startDate, mt.endDate, p) : Var))).headD dummyVar) =
      (getEligiblePhysiciansForBlock inst B t).map (fun p =>
        ((t.name, (B.headD dummyMathTask).startDate,
          (B.headD dummyMathTask).endDate, p) : Var)) := by
      apply List.map_congr_left
      intro p _
      exact hheadD p
    rw [heq] at hmem
    exact hmem
  refine ⟨hcover, ?_⟩
  intro sol hsat
  have hsatcover := hsat _ hcover
  unfold Constr.sat at hsatcover
  have hcount : ((getEligiblePhysiciansForBlock inst B t).map (fun p =>
      ((t.name, (B.headD dummyMathTask).startDate,
        (B.headD dummyMathTask).endDate, p) : Var))).countP sol = 1 :=
    eq_of_beq hsatcover
  rcases countP_map_eq_one hcount with ⟨p0, hp0elig, hp0true, hp0uniq⟩
  have hp0all : p0 ∈ allPhysicians inst :=
    (List.mem_filter.mp hp0elig).1
  -- every eligible physician has its coherence chain in the model
  have hchain : ∀ p ∈ getEligiblePhysiciansForBlock inst B t,
      ∀ c ∈ samePhysicianChain
        (B.map (fun mt => ((t.name, mt.startDate, mt.endDate, p) : Var))),
      c ∈ (buildModel inst).constraints := by
    intro p hp c hc
    refine blockJobs_constraint_mem hjob (fun _ => True) (fun _ _ _ => trivial) trivial ?_
    intro a _
    exact processBlock_physician_mem hp (fun _ => True) (fun _ _ _ => trivial)
      (fun _ _ _ => trivial) trivial (fun a _ => processPhysician_chain_mem hc a)
  -- p0 holds the whole block
  have hp0assigned : ∀ mt ∈ B, sol (t.name, mt.startDate, mt.endDate, p0) = true := by
    intro mt hmt
    have hcs : ∀ c ∈ samePhysicianChain
        (B.map (fun mt => ((t.name, mt.startDate, mt.endDate, p0) : Var))),
        Constr.sat sol c = true := by
      intro c hc
      exact hsat c (hchain p0 hp0elig c hc)
    have := chain_sat_eq hcs (t.name, mt.startDate, mt.endDate, p0)
      (List.mem_map.mpr ⟨mt, hmt, rfl⟩)
    rw [this, hheadD p0]
    exact hp0true
  -- any physician holding the whole block is eligible
  have hforce : ∀ q ∈ allPhysicians inst,
      (∀ mt ∈ B, sol (t.name, mt.startDate, mt.endDate, q) = true) →
      q ∈ getEligiblePhysiciansForBlock inst B t := by
    intro q hq hall
    by_contra hqnel
    have hpred : (B.all (fun mt => isAvailableForDays inst q mt.days) &&
        isPhysicianEligible inst q t) = false := by
      by_contra hcontra
      have htrue : (B.all (fun mt => isAvailableForDays inst q mt.days) &&
          isPhysicianEligible inst q t) = true := by
        cases hx : (B.all (fun mt => isAvailableForDays inst q mt.days) &&
            isPhysicianEligible inst q t)
        · exact absurd hx hcontra
        · rfl
      exact hqnel (List.mem_filter.mpr ⟨hq, htrue⟩)
    by_cases hav : B.all (fun mt => isAvailableForDays inst q mt.days) = true
    · -- excluded: the eligibility constraint forces zero on the first week
      have hel : isPhysicianEligible inst q t = false := by
        rw [hav] at hpred
        simpa using hpred
      have hex : (getPhysicianByName inst q).exclusionTasks.contains t.category.name = true := by
        unfold isPhysicianEligible at hel
        simpa using hel
      have hzero := eligibility_eqZero_mem ht (hsub _ hhead_mem) hq hex
      have hsz := hsat _ hzero
      unfold Constr.sat at hsz
      dsimp only at hsz
      have := hall _ hhead_mem
      rw [this] at hsz
      simp at hsz
    · -- unavailable on some week: the availability constraint forces zero there
      have hav' : B.all (fun mt => isAvailableForDays inst q mt.days) = false := by
        cases hx : B.all (fun mt => isAvailableForDays inst q mt.days)
        · rfl
        · exact absurd hx hav
      rcases List.all_eq_false.mp hav' with ⟨mt, hmt, hmtna⟩
      have hna : isAvailableForDays inst q mt.days = false := by
        cases hx : isAvailableForDays inst q mt.days
        · rfl
        · exact absurd hx hmtna
      have hzero := availability_eqZero_mem ht (hsub _ hmt) hq hna
      have hsz := hsat _ hzero
      unfold Constr.sat at hsz
      dsimp only at hsz
      have := hall _ hmt
      rw [this] at hsz
      simp at hsz
  refine ⟨p0, ⟨hp0all, hp0assigned⟩, ?_⟩
  intro q ⟨hq, hall⟩
  have hqelig := hforce q hq hall
  have hqfirst : sol (t.name, (B.headD dummyMathTask).startDate,
      (B.headD dummyMathTask).endDate, q) = true := hall _ hhead_mem
  exact hp0uniq q hqelig hqfirst

/-- Witness for C1 at a concrete input (the two-week CTU block of `inst2`). -/
theorem claim_C1_mandatory_coverage_witness :
    ((tCTU, [mtCTUw1, mtCTUw2]) ∈ blockJobs inst2 ∧ tCTU.mandatory = true ∧
      getEligiblePhysiciansForBlock inst2 [mtCTUw1, mtCTUw2] tCTU ≠ [] ∧
      (allPhysicians inst2).Nodup) ∧
    (Constr.sumEqOne ((getEligiblePhysiciansForBlock inst2 [mtCTUw1, mtCTUw2] tCTU).map
        (fun p => ((tCTU.name, ([mtCTUw1, mtCTUw2].headD dummyMathTask).startDate,
          ([mtCTUw1, mtCTUw2].headD dummyMathTask).endDate, p) : Var))) ∈
        (buildModel inst2).constraints ∧
      ∀ sol : Var → Bool, SatAll sol (buildModel inst2).constraints →
        ∃! p : PhysName, p ∈ allPhysicians inst2 ∧
          ∀ mt ∈ [mtCTUw1, mtCTUw2],
            sol (tCTU.name, mt.startDate, mt.endDate, p) = true) :=
  ⟨⟨by decide, rfl, by decide, by decide⟩,
   claim_C1_mandatory_coverage inst2 tCTU [mtCTUw1, mtCTUw2]
     (by decide) rfl (by decide) (by decide)⟩


/-- Claim C3 (corrected): the multi-week coherence constraints
`y[b_i,p] = y[b_{i+1},p]` are emitted only for physicians p eligible for the
whole group (available on every day of every member and not excluded) — not
for every physician.  For such p the chain is in the model, and in every
satisfying solution p holds either all members of the group or none; a
physician outside the eligible set is only forced to 0 on the weeks where an
availability or eligibility constraint applies and can be spuriously
assigned other member weeks (see the counterexample). -/
theorem claim_C3_coherence_eligible_only (inst : Instance) (t : Task)
    (B : List MathTask) (p : PhysName)
    (hjob : (t, B) ∈ blockJobs inst)
    (hp : p ∈ getEligiblePhysiciansForBlock inst B t) :
    (∀ c ∈ samePhysicianChain
        (B.map (fun mt => ((t.name, mt.startDate, mt.endDate, p) : Var))),
      c ∈ (buildModel inst).constraints) ∧
    ∀ sol : Var → Bool, SatAll sol (buildModel inst).constraints →
      ∀ mt ∈ B, sol (t.name, mt.startDate, mt.endDate, p) =
        sol (t.name, (B.headD dummyMathTask).startDate,
          (B.headD dummyMathTask).endDate, p) := by
  obtain ⟨ht, hB⟩ := mem_blockJobs.mp hjob
  have hBne : B ≠ [] := groupBlocks_ne_nil hB
  have hheadD :
      (B.map (fun mt => ((t.name, mt.startDate, mt.endDate, p) : Var))).headD dummyVar =
        ((t.name, (B.headD dummyMathTask).startDate,
          (B.headD dummyMathTask).endDate, p) : Var) := by
    cases B with
    | nil => exact absurd rfl hBne
    | cons b bs => rfl
  have hchain : ∀ c ∈ samePhysicianChain
      (B.map (fun mt => ((t.name, mt.startDate, mt.endDate, p) : Var))),
      c ∈ (buildModel inst).constraints := by
    intro c hc
    refine blockJobs_constraint_mem hjob (fun _ => True) (fun _ _ _ => trivial) trivial ?_
    intro a _
    exact processBlock_physician_mem hp (fun _ => True) (fun _ _ _ => trivial)
      (fun _ _ _ => trivial) trivial (fun a _ => processPhysician_chain_mem hc a)
  refine ⟨hchain, ?_⟩
  intro sol hsat mt hmt
  have hcs : ∀ c ∈ samePhysicianChain
      (B.map (fun mt => ((t.name, mt.startDate, mt.endDate, p) : Var))),
      Constr.sat sol c = true := fun c hc => hsat c (hchain c hc)
  have := chain_sat_eq hcs (t.name, mt.startDate, mt.endDate, p)
    (List.mem_map.mpr ⟨mt, hmt, rfl⟩)
  rw [this, hheadD]

/-- Witness for the corrected C3 at a concrete input (the eligible physician
p of the `inst3` group). -/
theorem claim_C3_coherence_eligible_only_witness :
    ((tCTU, [mtCTUw1, mtCTUw2]) ∈ blockJobs inst3 ∧
      "p" ∈ getEligiblePhysiciansForBlock inst3 [mtCTUw1, mtCTUw2] tCTU) ∧
    ((∀ c ∈ samePhysicianChain
        ([mtCTUw1, mtCTUw2].map (fun mt =>
          ((tCTU.name, mt.startDate, mt.endDate, "p") : Var))),
      c ∈ (buildModel inst3).constraints) ∧
    ∀ sol : Var → Bool, SatAll sol (buildModel inst3).constraints →
      ∀ mt ∈ [mtCTUw1, mtCTUw2], sol (tCTU.name, mt.startDate, mt.endDate, "p") =
        sol (tCTU.name, ([mtCTUw1, mtCTUw2].headD dummyMathTask).startDate,
          ([mtCTUw1, mtCTUw2].headD dummyMathTask).endDate, "p")) :=
  ⟨⟨by decide, by decide⟩,
   claim_C3_coherence_eligible_only inst3 tCTU [mtCTUw1, mtCTUw2] "p"
     (by decide) (by decide)⟩

/-- Claim C4 (corrected): the source does not emit the spec's linkage
inequality `y[b_c,p] ≤ Σ y[b_m,p]`.  Instead, for every MAIN task with a
linked call task, every block B with an eligible physician p, every call
`MathTask` selected as adjacent by `_get_linked_call_math_tasks` (or its
multiweek variant), and every member `MathTask` of B, it emits the equality
`y[b_c,p] = y[b_m,p]` — and only for physicians eligible for the main
block. -/
theorem claim_C4_linked_call_equalities (inst : Instance) (t : Task)
    (B : List MathTask) (p : PhysName) (cn : String) (cmt mt : MathTask)
    (hjob : (t, B) ∈ blockJobs inst)
    (hlink : getLinkedCall inst t = some cn)
    (hp : p ∈ getEligiblePhysiciansForBlock inst B t)
    (hcmt : cmt ∈ linkedCallSelection inst t B cn)
    (hmt : mt ∈ B) :
    Constr.eqVars (yVar cmt p) (t.name, mt.startDate, mt.endDate, p) ∈
      (buildModel inst).constraints := by
  have hlc : Constr.eqVars (yVar cmt p) (t.name, mt.startDate, mt.endDate, p) ∈
      handleLinkedCallTasks inst p t B cn
        (B.map (fun mt => ((t.name, mt.startDate, mt.endDate, p) : Var))) := by
    unfold handleLinkedCallTasks
    rw [List.mem_flatMap]
    refine ⟨cmt, hcmt, ?_⟩
    exact List.mem_map.mpr ⟨(t.name, mt.startDate, mt.endDate, p),
      List.mem_map.mpr ⟨mt, hmt, rfl⟩, rfl⟩
  refine blockJobs_constraint_mem hjob (fun _ => True) (fun _ _ _ => trivial) trivial ?_
  intro a _
  show _ ∈ (processBlock inst t (getLinkedCall inst t) a B).constraints
  rw [hlink]
  exact processBlock_physician_mem hp (fun _ => True) (fun _ _ _ => trivial)
    (fun _ _ _ => trivial) trivial (fun a _ => processPhysician_link_mem hlc a)

/-- Witness for the corrected C4 at a concrete input. -/
theorem claim_C4_linked_call_equalities_witness :
    ((tM4, [mtM4]) ∈ blockJobs inst4 ∧ getLinkedCall inst4 tM4 = some "ER_C" ∧
      "p" ∈ getEligiblePhysiciansForBlock inst4 [mtM4] tM4 ∧
      mtC4 ∈ linkedCallSelection inst4 tM4 [mtM4] "ER_C" ∧ mtM4 ∈ [mtM4]) ∧
    Constr.eqVars (yVar mtC4 "p") (tM4.name, mtM4.startDate, mtM4.endDate, "p") ∈
      (buildModel inst4).constraints :=
  ⟨⟨by decide, by decide, by decide, by decide, by decide⟩,
   claim_C4_linked_call_equalities inst4 tM4 [mtM4] "p" "ER_C" mtC4 mtM4
     (by decide) (by decide) (by decide) (by decide) (by decide)⟩







/-- Claim C2 (corrected): the mutual-exclusion constraint
`y[B,p] + y[B',p] ≤ 1` is emitted only in the following restricted
situation: B' is a block processed before B that consists of a single
`MathTask` b' (so that the recorded interval's `y` key exists — intervals of
earlier multi-week blocks have no `y` key and are silently skipped), p is
eligible for both blocks (ineligible physicians are instead fixed to 0 by
the availability/eligibility families), and some `MathTask` of B overlaps
b''s day range.  In that case the model contains
`y[B,p] + y[b',p] ≤ 1` over the first variable of B. -/
theorem claim_C2_overlap_restricted (inst : Instance)
    (l1 l2 l3 : List (Task × List MathTask)) (t' : Task) (b' : MathTask)
    (t : Task) (B : List MathTask) (p : PhysName) (mt : MathTask)
    (hjobs : blockJobs inst = l1 ++ (t', [b']) :: (l2 ++ (t, B) :: l3))
    (hp' : p ∈ getEligiblePhysiciansForBlock inst [b'] t')
    (hp : p ∈ getEligiblePhysiciansForBlock inst B t)
    (hmt : mt ∈ B)
    (hov : intervalsOverlap (mt.startDate, mt.endDate)
      (b'.startDate, b'.endDate) = true) :
    Constr.pairLeOne
      ((t.name, (B.headD dummyMathTask).startDate,
        (B.headD dummyMathTask).endDate, p) : Var)
      ((t'.name, b'.startDate, b'.endDate, p) : Var) ∈
      (buildModel inst).constraints := by
  have hjob' : (t', [b']) ∈ blockJobs inst := by
    rw [hjobs]
    exact List.mem_append_right _ (List.mem_cons_self _ _)
  obtain ⟨ht', hB'⟩ := mem_blockJobs.mp hjob'
  have hb'mem : b' ∈ taskMathTasks inst t' :=
    groupBlocks_subset hB' b' (List.mem_singleton.mpr rfl)
  have hname : b'.name = t'.name := taskMathTasks_name hb'mem
  have hpall : p ∈ allPhysicians inst := (List.mem_filter.mp hp').1
  have hvar : varExists inst ((t'.name, b'.startDate, b'.endDate, p) : Var) = true := by
    have hv := varExists_of_mem ht' hb'mem hpall
    unfold yVar at hv
    rw [hname] at hv
    exact hv
  have hBne : B ≠ [] := List.ne_nil_of_mem hmt
  have hheadD :
      (B.map (fun mt => ((t.name, mt.startDate, mt.endDate, p) : Var))).headD dummyVar =
        ((t.name, (B.headD dummyMathTask).startDate,
          (B.headD dummyMathTask).endDate, p) : Var) := by
    cases B with
    | nil => exact absurd rfl hBne
    | cons b bs => rfl
  apply assignment_constraint_sub
  rw [assignmentConstraints_eq, hjobs, List.foldl_append, List.foldl_cons,
    List.foldl_append, List.foldl_cons]
  have hkey1 : p ∈ keysOf ((l1.foldl (jobStep inst)
      (⟨[], [], initIntervals inst⟩ : Accum)).intervals) := by
    rw [foldl_keysOf _ (fun a x => jobStep_keysOf)]
    show p ∈ keysOf (initIntervals inst)
    rw [keysOf_initIntervals]
    exact hpall
  have hrec : ((b'.startDate, b'.endDate, t'.name) : TaskInterval) ∈
      getIntervals ((jobStep inst (l1.foldl (jobStep inst)
        (⟨[], [], initIntervals inst⟩ : Accum)) (t', [b'])).intervals) p :=
    processBlock_records_interval hp' hkey1
  have hrec2 : ((b'.startDate, b'.endDate, t'.name) : TaskInterval) ∈
      getIntervals ((l2.foldl (jobStep inst) (jobStep inst (l1.foldl (jobStep inst)
        (⟨[], [], initIntervals inst⟩ : Accum)) (t', [b']))).intervals) p :=
    foldl_proj_mono (jobStep inst) (fun a => getIntervals a.intervals p)
      (fun a x c hc => jobStep_intervals_mono hc) l2 _ _ hrec
  have hctr : Constr.pairLeOne
      ((t.name, (B.headD dummyMathTask).startDate,
        (B.headD dummyMathTask).endDate, p) : Var)
      ((t'.name, b'.startDate, b'.endDate, p) : Var) ∈
      (jobStep inst (l2.foldl (jobStep inst) (jobStep inst (l1.foldl (jobStep inst)
        (⟨[], [], initIntervals inst⟩ : Accum)) (t', [b']))) (t, B)).constraints := by
    rw [← hheadD]
    refine processBlock_physician_mem hp
      (fun a => ((b'.startDate, b'.endDate, t'.name) : TaskInterval) ∈
        getIntervals a.intervals p)
      (fun a q hq => processPhysician_intervals_mono hq)
      (fun a cs hq => hq)
      hrec2 ?_
    intro a ha
    exact processPhysician_prevent_mem ha hmt hov hvar
  exact foldl_proj_mono (jobStep inst) (fun a => a.constraints)
    (fun a x c hc => jobStep_constraints_mono hc) l3 _ _ hctr

/-- Witness for the corrected C2 at a concrete input: in `instPair` the
block of the second task gets the mutual-exclusion constraint against the
earlier single-week block of the first task. -/
theorem claim_C2_overlap_restricted_witness :
    (blockJobs instPair = [] ++ (tER, [mtERa]) :: ([] ++ (tERb, [mtERb]) :: []) ∧
      "p" ∈ getEligiblePhysiciansForBlock instPair [mtERa] tER ∧
      "p" ∈ getEligiblePhysiciansForBlock instPair [mtERb] tERb ∧
      mtERb ∈ [mtERb] ∧
      intervalsOverlap (mtERb.startDate, mtERb.endDate)
        (mtERa.startDate, mtERa.endDate) = true) ∧
    Constr.pairLeOne
      ((tERb.name, ([mtERb].headD dummyMathTask).startDate,
        ([mtERb].headD dummyMathTask).endDate, "p") : Var)
      ((tER.name, mtERa.startDate, mtERa.endDate, "p") : Var) ∈
      (buildModel instPair).constraints :=
  ⟨⟨by decide, by decide, by decide, by decide, by decide⟩,
   claim_C2_overlap_restricted instPair [] [] [] tER mtERa tERb [mtERb] "p" mtERb
     (by decide) (by decide) (by decide) (by decide) (by decide)⟩


/-! ## Helper lemmas: save/load round trip -/

theorem loadEntry_saveEntry (e : SEntry) :
    loadEntry (saveEntry e) = some (stringifyEntry e) := rfl

theorem mapM_loadEntry_save (es : List SEntry) :
    (es.map saveEntry).mapM loadEntry = some (es.map stringifyEntry) := by
  induction es with
  | nil => rfl
  | cons e es ih =>
    rw [List.map_cons, List.mapM_cons, loadEntry_saveEntry, ih]
    rfl

theorem loadSchedule_saveSchedule (s : Schedule) :
    loadSchedule (saveSchedule s) = some (stringifySchedule s) := by
  induction s with
  | nil => rfl
  | cons en s ih =>
    show ((en.1, en.2.map saveEntry) :: saveSchedule s).mapM _ = _
    rw [List.mapM_cons]
    unfold loadSchedule at ih
    rw [ih]
    show (do
      let x ← (do pure (en.1, ← (en.2.map saveEntry).mapM loadEntry) :
        Option (PhysName × List SEntry))
      pure (x :: stringifySchedule s)) = _
    rw [mapM_loadEntry_save]
    rfl

theorem fromIso_cellToStr (c : DayCell) : fromIso (cellToStr c) = some (cellDate c) := by
  cases c <;> rfl

theorem contiguousCells_map_cellToStr :
    ∀ l : List DayCell, contiguousCells (l.map cellToStr) = contiguousDates (l.map cellDate) := by
  intro l
  induction l with
  | nil => rfl
  | cons a rest ih =>
    cases rest with
    | nil => cases a <;> rfl
    | cons b r2 =>
      show ((match fromIso (cellToStr a), fromIso (cellToStr b) with
        | some x, some y => decide (y = x + 1)
        | _, _ => false) && contiguousCells ((b :: r2).map cellToStr)) = _
      rw [fromIso_cellToStr, fromIso_cellToStr, ih]
      rfl

theorem contiguousDates_headD_le_getLastD :
    ∀ {l : List Date}, contiguousDates l = true → l ≠ [] → l.headD 0 ≤ l.getLastD 0 := by
  intro l
  induction l with
  | nil => intro _ h; exact absurd rfl h
  | cons a rest ih =>
    intro hcd _
    cases rest with
    | nil => exact le_refl a
    | cons b r2 =>
      have hab : b = a + 1 ∧ contiguousDates (b :: r2) = true := by
        unfold contiguousDates at hcd
        rw [Bool.and_eq_true] at hcd
        exact ⟨of_decide_eq_true hcd.1, hcd.2⟩
      obtain ⟨hab1, hab2⟩ := hab
      have htail := ih hab2 (by simp)
      show a ≤ (b :: r2).getLastD a
      have hlast : (b :: r2).getLastD a = (b :: r2).getLastD 0 := by
        rw [List.getLastD_cons, List.getLastD_cons]
      rw [hlast]
      have hb : a ≤ b := by
        rw [hab1]
        exact le_of_lt (lt_add_one a)
      calc a ≤ b := hb
        _ ≤ (b :: r2).getLastD 0 := by
          rw [show ((b :: r2).headD 0 : Date) = b from rfl] at htail
          exact htail

theorem validateEntry_stringify {taskNames : List String} {e : SEntry}
    (htask : e.task ∈ taskNames) (hgen : generatedEntry e = true) :
    validateEntry taskNames (stringifyEntry e) = true := by
  unfold generatedEntry at hgen
  rw [Bool.and_eq_true, Bool.and_eq_true, Bool.and_eq_true, Bool.and_eq_true] at hgen
  obtain ⟨⟨⟨⟨hne, _⟩, hhead⟩, hlast⟩, hcont⟩ := hgen
  have hne' : e.days ≠ [] := by
    intro h
    rw [h] at hne
    simp at hne
  obtain ⟨c0, cs, hdays⟩ : ∃ c0 cs, e.days = c0 :: cs := by
    cases hd : e.days with
    | nil => exact absurd hd hne'
    | cons c0 cs => exact ⟨c0, cs, rfl⟩
  have hhead' : cellDate c0 = e.startDate := by
    rw [hdays] at hhead
    have := eq_of_beq hhead
    simp at this
    exact this
  obtain ⟨cl, hcl, hcld⟩ : ∃ cl, e.days.getLast? = some cl ∧ cellDate cl = e.endDate := by
    cases hl : e.days.getLast? with
    | none =>
      rw [hl] at hlast
      simp at hlast
    | some cl =>
      rw [hl] at hlast
      have := eq_of_beq hlast
      simp at this
      exact ⟨cl, rfl, this⟩
  unfold validateEntry stringifyEntry
  dsimp only
  rw [Bool.and_eq_true, Bool.and_eq_true, Bool.and_eq_true, Bool.and_eq_true]
  refine ⟨⟨⟨⟨?_, ?_⟩, ?_⟩, ?_⟩, ?_⟩
  · exact List.elem_iff.mpr htask
  · -- start_date <= end_date from contiguity of the day list
    have hds : contiguousDates (e.days.map cellDate) = true := hcont
    have hdne : (e.days.map cellDate) ≠ [] := by
      rw [hdays]
      simp
    have hle := contiguousDates_headD_le_getLastD hds hdne
    have h1 : (e.days.map cellDate).headD 0 = e.startDate := by
      rw [hdays]
      exact hhead'
    have h2 : (e.days.map cellDate).getLastD 0 = e.endDate := by
      have : (e.days.map cellDate).getLast? = some (cellDate cl) := by
        rw [List.getLast?_map, hcl]
        rfl
      rw [List.getLastD_eq_getLast?, this]
      exact hcld
    rw [h1, h2] at hle
    exact decide_eq_true hle
  · rw [hdays]
    show (fromIso (cellToStr c0) == some e.startDate) = true
    rw [fromIso_cellToStr, hhead']
    simp
  · have : (e.days.map cellToStr).getLast? = some (cellToStr cl) := by
      rw [List.getLast?_map, hcl]
      rfl
    rw [this]
    show (fromIso (cellToStr cl) == some e.endDate) = true
    rw [fromIso_cellToStr, hcld]
    simp
  · rw [contiguousCells_map_cellToStr]
    exact hcont

/-- Claim C9 (corrected): one save/load round trip reproduces the schedule
except that the `days` entries come back as ISO strings (start/end dates and
task references are restored); the loaded schedule passes the validation
asserts of `_load_schedule_from_file` whenever the saved schedule was a
generated one over registered physicians and tasks. -/
theorem claim_C9_roundtrip_stringified (s : Schedule)
    (allPhys taskNames : List String)
    (h : ∀ en ∈ s, en.1 ∈ allPhys ∧ ∀ e ∈ en.2, e.task ∈ taskNames ∧
      generatedEntry e = true) :
    loadSchedule (saveSchedule s) = some (stringifySchedule s) ∧
    validateSchedule allPhys taskNames (stringifySchedule s) = true := by
  refine ⟨loadSchedule_saveSchedule s, ?_⟩
  unfold validateSchedule stringifySchedule
  rw [List.all_eq_true]
  intro en' hen'
  rcases List.mem_map.mp hen' with ⟨en, hen, hene⟩
  rcases h en hen with ⟨hphys, hentries⟩
  rw [← hene]
  dsimp only
  rw [Bool.and_eq_true]
  constructor
  · exact List.elem_iff.mpr hphys
  · rw [List.all_eq_true]
    intro e' he'
    rcases List.mem_map.mp he' with ⟨e, he, hee⟩
    rw [← hee]
    exact validateEntry_stringify (hentries e he).1 (hentries e he).2

/-- Witness for the corrected C9 at a concrete input. -/
theorem claim_C9_roundtrip_stringified_witness :
    (∀ en ∈ sched9, en.1 ∈ ["p"] ∧ ∀ e ∈ en.2, e.task ∈ ["ER_M"] ∧
      generatedEntry e = true) ∧
    (loadSchedule (saveSchedule sched9) = some (stringifySchedule sched9) ∧
      validateSchedule ["p"] ["ER_M"] (stringifySchedule sched9) = true) :=
  ⟨by decide, claim_C9_roundtrip_stringified sched9 ["p"] ["ER_M"] (by decide)⟩

end DrScheduler
